import Mathlib

/-!
# Unscented Kalman filter (`src/ukf.cpp`): embedding and properties

The C++ class `UKF` is embedded as a record of its member variables and its
methods as functions from records to records.  `double` (and the `float`
temporaries of the radar initialisation) are idealised as real numbers, so all
rounding is exact; `long long` timestamps are integers.  Eigen's dense
operations are embedded by their mathematical meaning: `llt()` is the in-place
unblocked Cholesky loop that Eigen runs for matrices smaller than 32x32,
`inverse()` is the matrix inverse.

Members that the constructor sets once and that no method reassigns
(`n_x_`, `n_aug_`, `lambda_`, `weights_`) are constants; the noise standard
deviations and the sensor flags are fields of the record.
-/

open Matrix BigOperators

noncomputable section

/-- Dense real vector of fixed size (Eigen `VectorXd` of that size). -/
abbrev Vec (n : ℕ) := Fin n → ℝ

/-- Dense real matrix of fixed shape (Eigen `MatrixXd` of that shape). -/
abbrev Mat (m n : ℕ) := Matrix (Fin m) (Fin n) ℝ

/-- Modelled from the spec: the enumeration `MeasurementPackage::SensorType`
is declared in `measurement_package.h`, which is not among the sources; its
values are the two sensor kinds that the spec and `ProcessMeasurement` name. -/
inductive SensorType where
  | LASER
  | RADAR
  deriving DecidableEq

/-- Modelled from the spec: the record `MeasurementPackage` is declared in
`measurement_package.h`, which is not among the sources.  It holds an integer
time stamp (microseconds), the sensor kind and the raw values (two for a laser,
three for a radar measurement). -/
structure MeasurementPackage where
  timestamp_ : ℤ
  sensor_type_ : SensorType
  raw_measurements_ : List ℝ

/-- Entry `i` of `raw_measurements_`. -/
def MeasurementPackage.raw (m : MeasurementPackage) (i : ℕ) : ℝ :=
  m.raw_measurements_.getD i 0

/-- Modelled from the spec: the class `UKF` is declared in `ukf.h`, which is
not among the sources.  These are the member variables that the methods of
`ukf.cpp` read or write, with the shapes the constructor and the methods give
them; `previous_timestamp_` is an integer like the time stamps it stores. -/
structure UKF where
  is_initialized_ : Bool
  use_laser_ : Bool
  use_radar_ : Bool
  x_ : Vec 5
  P_ : Mat 5 5
  Xsig_pred_ : Mat 5 15
  previous_timestamp_ : ℤ
  std_a_ : ℝ
  std_yawdd_ : ℝ
  std_laspx_ : ℝ
  std_laspy_ : ℝ
  std_radr_ : ℝ
  std_radphi_ : ℝ
  std_radrd_ : ℝ
  R_radar_ : Mat 3 3

namespace UKF

/-! ## Constructor constants -/

/-- State dimension, `n_x_ = 5`. -/
abbrev n_x_ : ℕ := 5

/-- Augmented state dimension, `n_aug_ = 7`. -/
abbrev n_aug_ : ℕ := 7

/-- Number of sigma points, `2 * n_aug_ + 1`. -/
abbrev n_sig_ : ℕ := 2 * n_aug_ + 1

/-- Spreading parameter `lambda_ = 3 - n_aug_` for an augmented dimension
`n_aug`: integer subtraction, stored in the real-valued member `lambda_`
(`double` in `ukf.h`, as the real-valued weights of the spec require). -/
def lambdaOf (n_aug : ℕ) : ℝ := ((3 - (n_aug : ℤ) : ℤ) : ℝ)

/-- The weights the constructor's loop writes, for an augmented dimension
`n_aug`: `weight_0 = lambda_ / (lambda_ + n_aug_)` at index 0 and
`0.5 / (n_aug_ + lambda_)` at every index `1 .. 2 * n_aug_`. -/
def weightsOf (n_aug : ℕ) (i : ℕ) : ℝ :=
  if i = 0 then lambdaOf n_aug / (lambdaOf n_aug + (n_aug : ℝ))
  else 0.5 / ((n_aug : ℝ) + lambdaOf n_aug)

/-- The member `lambda_`. -/
def lambda_ : ℝ := lambdaOf n_aug_

/-- The member `weights_`, a vector of `2 * n_aug_ + 1 = 15` entries. -/
def weights_ : Fin n_sig_ → ℝ := fun i => weightsOf n_aug_ i.val

/-! ## Angle normalisation -/

/-- `UKF::normalizeAngle`: `a - (2*M_PI) * floor((a + M_PI) / (2*M_PI))`. -/
def normalizeAngle (a : ℝ) : ℝ :=
  a - (2 * Real.pi) * ((⌊(a + Real.pi) / (2 * Real.pi)⌋ : ℤ) : ℝ)

/-! ## Constructor -/

/-- `UKF::UKF()`.  The constructor allocates `x_`, `P_` (and leaves
`Xsig_pred_` empty) without writing them; their initial contents are the
arguments `x0`, `P0`, `X0`. -/
def init (x0 : Vec 5) (P0 : Mat 5 5) (X0 : Mat 5 15) : UKF where
  is_initialized_ := false
  use_laser_ := true
  use_radar_ := true
  x_ := x0
  P_ := P0
  Xsig_pred_ := X0
  previous_timestamp_ := 0
  std_a_ := 1
  std_yawdd_ := Real.pi / 8
  std_laspx_ := 0.15
  std_laspy_ := 0.15
  std_radr_ := 0.3
  std_radphi_ := 0.03
  std_radrd_ := 0.3
  R_radar_ := !![0.3 * 0.3, 0, 0; 0, 0.03 * 0.03, 0; 0, 0, 0.3 * 0.3]

/-! ## Eigen's Cholesky factorisation `llt()`

The Eigen library is not among the sources.  The spec asks for a matrix square
root `S` with `S * Sᵗ = cov`, the Cholesky lower-triangular factor; the
definitions below are the column-by-column loop that Eigen's `LLT` runs on a
dense matrix of this size, which reads the lower triangle only and stops at the
first non-positive pivot. -/

/-- The sum `∑ t < k, a t`, the inner products over the first `k` columns
that the Cholesky loop takes (`A10.squaredNorm()`, `A20 * A10.adjoint()`). -/
def sumBelow {n : ℕ} (k : Fin n) (a : Fin n → ℝ) : ℝ :=
  ∑ t : Fin n, if t < k then a t else 0

/-- Modelled from the spec: Eigen's `llt()` is not among the sources; this is
one pass `k` of the Cholesky loop `llt_inplace<Scalar, Lower>::unblocked`:
`x = mat(k,k) - A10.squaredNorm()`; `if (x <= 0) return k` (here `none`);
`mat(k,k) = sqrt(x)`; `A21 -= A20 * A10.adjoint()`; `A21 /= x`. -/
def lltColumn {n : ℕ} (mat : Mat n n) (k : Fin n) : Option (Mat n n) :=
  let x := mat k k - sumBelow k (fun t => mat k t * mat k t)
  if x ≤ 0 then none
  else some (fun i j =>
    if j = k then
      if i = k then Real.sqrt x
      else if k < i then
        (mat i k - sumBelow k (fun t => mat i t * mat k t)) / Real.sqrt x
      else mat i j
    else mat i j)

/-- Modelled from the spec: Eigen's `llt()` is not among the sources; this is
the loop `for (k = 0; k < size; ++k)` of `unblocked`, entered at `k`
with `r` passes left.  The result is the matrix as the loop leaves it and the
returned index: `k` when pass `k` meets a non-positive pivot, `-1` when all
passes succeed. -/
def unblockedFrom {n : ℕ} : ℕ → ℕ → Mat n n → Mat n n × ℤ
  | 0, _, mat => (mat, -1)
  | r + 1, k, mat =>
    if h : k < n then
      match lltColumn mat ⟨k, h⟩ with
      | none => (mat, (k : ℤ))
      | some m => unblockedFrom r (k + 1) m
    else (mat, -1)

/-- Modelled from the spec: Eigen's `llt()` is not among the sources; this is
`llt_inplace<Scalar, Lower>::unblocked(mat)`, all passes from column 0. -/
def unblocked {n : ℕ} (mat : Mat n n) : Mat n n × ℤ :=
  unblockedFrom n 0 mat

/-- Modelled from the spec: Eigen's `LLT<MatrixXd>` is not among the sources;
the object holds the factorised copy `m_matrix` and whether `m_info` is
`Success`. -/
structure LLT (n : ℕ) where
  m_matrix : Mat n n
  success : Bool

/-- Modelled from the spec: Eigen's `llt()` is not among the sources;
`a.llt()` copies `a`, factorises the copy in place and records
`m_info = Success` exactly when `unblocked` returns `-1`. -/
def llt {n : ℕ} (a : Mat n n) : LLT n where
  m_matrix := (unblocked a).1
  success := decide ((unblocked a).2 = -1)

/-- Modelled from the spec: Eigen's `matrixL()` is not among the sources;
assigned to a dense matrix it is the lower triangle of `m_matrix`, zero above
the diagonal. -/
def LLT.matrixL {n : ℕ} (d : LLT n) : Mat n n :=
  fun i j => if j ≤ i then d.m_matrix i j else 0

/-! ## Prediction -/

/-- The augmented mean `x_aug`: `x_` followed by two zeros. -/
def x_aug (s : UKF) : Vec 7 :=
  fun i => if h : i.val < 5 then s.x_ ⟨i.val, h⟩ else 0

/-- The augmented covariance `P_aug`: `P_` in the top left corner,
`std_a_ * std_a_` at (5,5), `std_yawdd_ * std_yawdd_` at (6,6), zero
elsewhere. -/
def P_aug (s : UKF) : Mat 7 7 :=
  fun i j =>
    if h : i.val < 5 ∧ j.val < 5 then s.P_ ⟨i.val, h.1⟩ ⟨j.val, h.2⟩
    else if i.val = 5 ∧ j.val = 5 then s.std_a_ * s.std_a_
    else if i.val = 6 ∧ j.val = 6 then s.std_yawdd_ * s.std_yawdd_
    else 0

/-- The square root matrix `L = P_aug.llt().matrixL()`. -/
def sqrtL (s : UKF) : Mat 7 7 := (llt (P_aug s)).matrixL

/-- The augmented sigma points `Xsig_aug` (7 x 15): column 0 is `x_aug`,
column `i+1` is `x_aug + sqrt(lambda_ + n_aug_) * L.col(i)` and column
`i+1+n_aug_` is `x_aug - sqrt(lambda_ + n_aug_) * L.col(i)`. -/
def Xsig_aug (s : UKF) : Mat 7 15 :=
  fun r c =>
    if c.val = 0 then x_aug s r
    else if h : c.val ≤ 7 then
      x_aug s r + Real.sqrt (lambda_ + (n_aug_ : ℝ)) * sqrtL s r ⟨c.val - 1, by omega⟩
    else
      x_aug s r - Real.sqrt (lambda_ + (n_aug_ : ℝ)) * sqrtL s r ⟨c.val - 1 - 7, by omega⟩

/-- The body of the sigma-point prediction loop: the motion model applied to
one augmented sigma point `(p_x, p_y, v, yaw, yawd, nu_a, nu_yawdd)`. -/
def predictPoint (delta_t : ℝ) (a : Vec 7) : Vec 5 :=
  let p_x := a 0
  let p_y := a 1
  let v := a 2
  let yaw := a 3
  let yawd := a 4
  let nu_a := a 5
  let nu_yawdd := a 6
  let px_p :=
    if |yawd| > 0.001 then p_x + v / yawd * (Real.sin (yaw + yawd * delta_t) - Real.sin yaw)
    else p_x + v * delta_t * Real.cos yaw
  let py_p :=
    if |yawd| > 0.001 then p_y + v / yawd * (Real.cos yaw - Real.cos (yaw + yawd * delta_t))
    else p_y + v * delta_t * Real.sin yaw
  let v_p := v
  let yaw_p := yaw + yawd * delta_t
  let yawd_p := yawd
  ![px_p + 0.5 * nu_a * delta_t * delta_t * Real.cos yaw,
    py_p + 0.5 * nu_a * delta_t * delta_t * Real.sin yaw,
    v_p + nu_a * delta_t,
    yaw_p + 0.5 * nu_yawdd * delta_t * delta_t,
    yawd_p + nu_yawdd * delta_t]

/-- The predicted sigma points that `Prediction` stores in `Xsig_pred_`. -/
def predictSigma (s : UKF) (delta_t : ℝ) : Mat 5 15 :=
  fun r c => predictPoint delta_t (fun q => Xsig_aug s q c) r

/-- The weighted mean of the columns of a 5 x 15 sigma-point matrix. -/
def sigmaMean (X : Mat 5 15) : Vec 5 :=
  fun r => ∑ c : Fin 15, weights_ c * X r c

/-- The state difference `x_diff = X.col(c) - x` with its yaw component
(index 3) passed through `normalizeAngle`. -/
def stateDiff (X : Mat 5 15) (x : Vec 5) (c : Fin 15) : Vec 5 :=
  fun r => if r = 3 then normalizeAngle (X 3 c - x 3) else X r c - x r

/-- The weighted covariance `∑ weights_(c) * x_diff * x_diff.transpose()`. -/
def sigmaCov (X : Mat 5 15) (x : Vec 5) : Mat 5 5 :=
  fun a b => ∑ c : Fin 15, weights_ c * stateDiff X x c a * stateDiff X x c b

/-- `UKF::Prediction(delta_t)`. -/
def Prediction (s : UKF) (delta_t : ℝ) : UKF :=
  let X := predictSigma s delta_t
  let x := sigmaMean X
  { s with Xsig_pred_ := X, x_ := x, P_ := sigmaCov X x }

/-! ## Laser update -/

/-- The measurement matrix `H_laser_`. -/
def H_laser_ : Mat 2 5 := !![1, 0, 0, 0, 0; 0, 1, 0, 0, 0]

/-- The laser noise covariance `R_laser_`. -/
def R_laser_ (s : UKF) : Mat 2 2 :=
  !![s.std_laspx_ * s.std_laspx_, 0; 0, s.std_laspy_ * s.std_laspy_]

/-- The laser innovation `y = z - H_laser_ * x_`. -/
def lidarY (s : UKF) (m : MeasurementPackage) : Vec 2 :=
  ![m.raw 0, m.raw 1] - H_laser_ *ᵥ s.x_

/-- The laser innovation covariance `S = H_laser_ * P_ * Ht + R_laser_`. -/
def lidarS (s : UKF) : Mat 2 2 := H_laser_ * s.P_ * H_laser_ᵀ + R_laser_ s

/-- The laser gain `K = P_ * Ht * S.inverse()`. -/
def lidarK (s : UKF) : Mat 5 2 := s.P_ * H_laser_ᵀ * (lidarS s)⁻¹

/-- The local `epsilon = y.transpose() * Si * y` of `UpdateLidar`. -/
def lidarEpsilon (s : UKF) (m : MeasurementPackage) : ℝ :=
  lidarY s m ⬝ᵥ ((lidarS s)⁻¹ *ᵥ lidarY s m)

/-- `UKF::UpdateLidar(meas_package)`. -/
def UpdateLidar (s : UKF) (m : MeasurementPackage) : UKF :=
  { s with
    x_ := s.x_ + lidarK s *ᵥ lidarY s m
    P_ := (1 - lidarK s * H_laser_) * s.P_ }

/-! ## Radar update -/

/-- The C function `atan2(y, x)`. -/
def atan2 (y x : ℝ) : ℝ := Complex.arg ⟨x, y⟩

/-- The clamp `std::abs(a) < eps ? eps : a` with `eps = 0.00000001`. -/
def clampEps (a : ℝ) : ℝ := if |a| < 0.00000001 then 0.00000001 else a

/-- The sigma points in measurement space, `Zsig` (3 x 15). -/
def Zsig (s : UKF) : Mat 3 15 :=
  fun r c =>
    let p_x := clampEps (s.Xsig_pred_ 0 c)
    let p_y := clampEps (s.Xsig_pred_ 1 c)
    let v := s.Xsig_pred_ 2 c
    let yaw := s.Xsig_pred_ 3 c
    let v1 := Real.cos yaw * v
    let v2 := Real.sin yaw * v
    ![Real.sqrt (p_x * p_x + p_y * p_y),
      atan2 p_y p_x,
      (p_x * v1 + p_y * v2) / Real.sqrt (p_x * p_x + p_y * p_y)] r

/-- The mean predicted measurement `z_pred`. -/
def radarZpred (s : UKF) : Vec 3 :=
  fun r => ∑ c : Fin 15, weights_ c * Zsig s r c

/-- The residual `z_diff = Zsig.col(c) - z_pred` with its bearing component
(index 1) passed through `normalizeAngle`. -/
def radarZdiff (s : UKF) (c : Fin 15) : Vec 3 :=
  fun r =>
    if r = 1 then normalizeAngle (Zsig s 1 c - radarZpred s 1)
    else Zsig s r c - radarZpred s r

/-- The radar innovation covariance `S`, measurement noise `R_radar_` added. -/
def radarS (s : UKF) : Mat 3 3 :=
  (Matrix.of fun a b => ∑ c : Fin 15, weights_ c * radarZdiff s c a * radarZdiff s c b)
    + s.R_radar_

/-- The cross correlation matrix `Tc`. -/
def radarTc (s : UKF) : Mat 5 3 :=
  fun a b => ∑ c : Fin 15, weights_ c * stateDiff s.Xsig_pred_ s.x_ c a * radarZdiff s c b

/-- The radar gain `K = Tc * S.inverse()`. -/
def radarK (s : UKF) : Mat 5 3 := radarTc s * (radarS s)⁻¹

/-- The radar innovation `z - z_pred`, bearing component normalised. -/
def radarInnov (s : UKF) (m : MeasurementPackage) : Vec 3 :=
  fun r =>
    if r = 1 then normalizeAngle (m.raw 1 - radarZpred s 1)
    else m.raw r.val - radarZpred s r

/-- The local `epsilon = z_diff.transpose() * S.inverse() * z_diff` of
`UpdateRadar`. -/
def radarEpsilon (s : UKF) (m : MeasurementPackage) : ℝ :=
  radarInnov s m ⬝ᵥ ((radarS s)⁻¹ *ᵥ radarInnov s m)

/-- `UKF::UpdateRadar(meas_package)`. -/
def UpdateRadar (s : UKF) (m : MeasurementPackage) : UKF :=
  { s with
    x_ := s.x_ + radarK s *ᵥ radarInnov s m
    P_ := s.P_ - radarK s * radarS s * (radarK s)ᵀ }

/-! ## Measurement processing -/

/-- The first-measurement branch of `ProcessMeasurement`: `x_` is preset to
ones, `P_` to the identity, then `x_` is seeded from the measurement. -/
def firstMeasurement (s : UKF) (m : MeasurementPackage) : UKF :=
  let x1 : Vec 5 := ![1, 1, 1, 1, 1]
  let x2 : Vec 5 :=
    if m.sensor_type_ = SensorType.RADAR then
      let ro := m.raw 0
      let theta := m.raw 1
      ![ro * Real.cos theta, ro * Real.sin theta, 0, 0, 0]
    else if m.sensor_type_ = SensorType.LASER then
      ![m.raw 0, m.raw 1, 0, 0, 0]
    else x1
  { s with
    x_ := x2
    P_ := 1
    is_initialized_ := true
    previous_timestamp_ := m.timestamp_ }

/-- The local `dt` of `ProcessMeasurement`: zero unless
`previous_timestamp_ != 0`, else the elapsed time in seconds. -/
def elapsed (s : UKF) (m : MeasurementPackage) : ℝ :=
  if s.previous_timestamp_ ≠ 0 then
    ((m.timestamp_ - s.previous_timestamp_ : ℤ) : ℝ) / 1000000.0
  else 0

/-- The two guarded updates that end `ProcessMeasurement`. -/
def applyUpdates (s : UKF) (m : MeasurementPackage) : UKF :=
  let s1 :=
    if s.use_radar_ = true ∧ m.sensor_type_ = SensorType.RADAR then UpdateRadar s m else s
  if s1.use_laser_ = true ∧ m.sensor_type_ = SensorType.LASER then UpdateLidar s1 m else s1

/-- `UKF::ProcessMeasurement(meas_package)`. -/
def ProcessMeasurement (s : UKF) (m : MeasurementPackage) : UKF :=
  if s.is_initialized_ = false then firstMeasurement s m
  else
    let dt := elapsed s m
    let s1 := { s with previous_timestamp_ := m.timestamp_ }
    applyUpdates (Prediction s1 dt) m

/-! ## Index maps and predicates used in the statements -/

/-- Index `i` of the state seen as an index of the augmented state. -/
def up (i : Fin 5) : Fin 7 := Fin.castLE (by norm_num) i

/-- The sigma-point column `i + 1`. -/
def colPlus (i : Fin 7) : Fin 15 := ⟨i.val + 1, by omega⟩

/-- The sigma-point column `i + 1 + n_aug_`. -/
def colMinus (i : Fin 7) : Fin 15 := ⟨i.val + 1 + 7, by omega⟩

/-- The matrix `A` is symmetric and positive definite on its leading
`N` x `N` block. -/
def LeadingPD {n : ℕ} (A : Mat n n) (N : ℕ) : Prop :=
  (∀ i j : Fin n, i.val < N → j.val < N → A i j = A j i) ∧
    ∀ z : Fin n → ℝ, (∀ i, N ≤ i.val → z i = 0) → z ≠ 0 → 0 < z ⬝ᵥ A *ᵥ z

/-- Loop invariant of the Cholesky loop before pass `k` on input `A`: the
columns from `k` on still hold `A`, the first `k` diagonal entries are
positive, and the first `k` columns satisfy the Cholesky equations on and
below the diagonal. -/
def CholInv {n : ℕ} (A : Mat n n) (k : ℕ) (m : Mat n n) : Prop :=
  (∀ i j : Fin n, k ≤ j.val → m i j = A i j) ∧
    (∀ j : Fin n, j.val < k → 0 < m j j) ∧
    ∀ i j : Fin n, j.val < k → j ≤ i →
      sumBelow j (fun t => m i t * m j t) + m i j * m j j = A i j

/-- A freshly constructed filter given the covariance
`diag(1, 1, 1, 4, 1)`, whose heading variance 4 exceeds `π² / 3`. -/
def wideHeading : UKF := { init 0 0 0 with P_ := Matrix.diagonal ![1, 1, 1, 4, 1] }

/-- The states the filter can be in: a freshly constructed filter, with the
two sensor flags set either way, and every state that `ProcessMeasurement`
makes of a reachable state and a measurement. -/
inductive Reachable : UKF → Prop where
  | start (x0 : Vec 5) (P0 : Mat 5 5) (X0 : Mat 5 15) (ul ur : Bool) :
      Reachable { init x0 P0 X0 with use_laser_ := ul, use_radar_ := ur }
  | step (s : UKF) (m : MeasurementPackage) :
      Reachable s → Reachable (ProcessMeasurement s m)

/-- A freshly constructed filter given the covariance `-I`, which is
symmetric and not positive definite. -/
def negCov : UKF := { init 0 0 0 with P_ := -1 }

/-! ## Constructor weights -/

theorem lambdaOf_add (L : ℕ) : lambdaOf L + (L : ℝ) = 3 := by
  unfold lambdaOf
  push_cast
  ring

theorem weightsOf_zero (L : ℕ) : weightsOf L 0 = (3 - (L : ℝ)) / 3 := by
  have h : lambdaOf L = 3 - (L : ℝ) := by linarith [lambdaOf_add L]
  simp only [weightsOf, if_true, lambdaOf_add]
  rw [h]

theorem weightsOf_succ (L i : ℕ) : weightsOf L (i + 1) = 1 / 6 := by
  have h : (L : ℝ) + lambdaOf L = 3 := by linarith [lambdaOf_add L]
  simp only [weightsOf, Nat.succ_ne_zero, if_false, h]
  norm_num

theorem weights_zero : weights_ 0 = -4 / 3 := by
  show weightsOf 7 0 = -4 / 3
  rw [weightsOf_zero]
  norm_num

theorem weights_pos (c : Fin 15) (h : c ≠ 0) : weights_ c = 1 / 6 := by
  obtain ⟨k, hk⟩ : ∃ k, c.val = k + 1 :=
    Nat.exists_eq_succ_of_ne_zero (fun h0 => h (Fin.ext h0))
  show weightsOf 7 c.val = 1 / 6
  rw [hk, weightsOf_succ]

/-- C7. The weights the constructor builds sum to exactly 1: for the
program's `n_aug_ = 7` (the fifteen entries of `weights_`), and for every
augmented dimension `L` put in its place (the `2 * L + 1` entries of
`weightsOf L`). -/
theorem weights_sum_eq_one :
    (∑ i : Fin 15, weights_ i = 1) ∧
      ∀ L : ℕ, ∑ i in Finset.range (2 * L + 1), weightsOf L i = 1 := by
  have hgen : ∀ L : ℕ, ∑ i in Finset.range (2 * L + 1), weightsOf L i = 1 := by
    intro L
    rw [Finset.sum_range_succ', weightsOf_zero]
    simp only [weightsOf_succ, Finset.sum_const, Finset.card_range, nsmul_eq_mul]
    push_cast
    ring
  refine ⟨?_, hgen⟩
  have h7 := hgen 7
  rw [← Fin.sum_univ_eq_sum_range (fun i => weightsOf 7 i) (2 * 7 + 1)] at h7
  exact h7

/-! ## Angle normalisation -/

theorem normalizeAngle_ge (a : ℝ) : -Real.pi ≤ normalizeAngle a := by
  have hpi : 0 < 2 * Real.pi := by positivity
  have h1 : ((⌊(a + Real.pi) / (2 * Real.pi)⌋ : ℤ) : ℝ) ≤ (a + Real.pi) / (2 * Real.pi) :=
    Int.floor_le _
  rw [le_div_iff₀ hpi] at h1
  unfold normalizeAngle
  linarith

theorem normalizeAngle_lt (a : ℝ) : normalizeAngle a < Real.pi := by
  have hpi : 0 < 2 * Real.pi := by positivity
  have h1 : (a + Real.pi) / (2 * Real.pi) < ((⌊(a + Real.pi) / (2 * Real.pi)⌋ : ℤ) : ℝ) + 1 :=
    Int.lt_floor_add_one _
  rw [div_lt_iff₀ hpi] at h1
  unfold normalizeAngle
  linarith

theorem normalizeAngle_of_mem (a : ℝ) (h1 : -Real.pi ≤ a) (h2 : a < Real.pi) :
    normalizeAngle a = a := by
  have hpi : 0 < 2 * Real.pi := by positivity
  have hfloor : ⌊(a + Real.pi) / (2 * Real.pi)⌋ = 0 := by
    rw [Int.floor_eq_iff]
    constructor
    · simp only [Int.cast_zero]
      apply div_nonneg <;> linarith
    · simp only [Int.cast_zero, zero_add]
      rw [div_lt_iff₀ hpi]
      linarith
  simp [normalizeAngle, hfloor]

/-- C9 (as stated, refuted). At `a = π` the claimed bound
`-π < normalizeAngle a` fails: `normalizeAngle π = -π`. -/
theorem normalizeAngle_pi_not_in_Ioc :
    normalizeAngle Real.pi = -Real.pi ∧
      ¬ (-Real.pi < normalizeAngle Real.pi ∧ normalizeAngle Real.pi ≤ Real.pi) := by
  have hpi : Real.pi ≠ 0 := Real.pi_ne_zero
  have h : normalizeAngle Real.pi = -Real.pi := by
    have h1 : (Real.pi + Real.pi) / (2 * Real.pi) = ((1 : ℤ) : ℝ) := by
      field_simp
      ring
    unfold normalizeAngle
    rw [h1, Int.floor_intCast]
    push_cast
    ring
  refine ⟨h, ?_⟩
  rw [h]
  exact fun hh => lt_irrefl _ hh.1

/-- C9 (amended). For every real `a`, `normalizeAngle a` lies in the half-open
interval `[-π, π)`: `-π ≤ normalizeAngle a < π`. -/
theorem normalizeAngle_mem_Ico (a : ℝ) :
    -Real.pi ≤ normalizeAngle a ∧ normalizeAngle a < Real.pi :=
  ⟨normalizeAngle_ge a, normalizeAngle_lt a⟩

/-- C10. `normalizeAngle` is idempotent: for every real `a`,
`normalizeAngle (normalizeAngle a) = normalizeAngle a`. -/
theorem normalizeAngle_idempotent (a : ℝ) :
    normalizeAngle (normalizeAngle a) = normalizeAngle a :=
  normalizeAngle_of_mem _ (normalizeAngle_ge a) (normalizeAngle_lt a)

/-! ## First measurement and time step -/

/-- C1. A laser measurement `(x, y)` with time stamp `t` delivered to a filter
that is not initialised leaves `x_ = [x, y, 0, 0, 0]`, `P_` the identity,
`is_initialized_ = true` and `previous_timestamp_ = t`; every other member,
`Xsig_pred_` included, is as before, so neither `Prediction` nor an update
ran. -/
theorem processMeasurement_first_laser (s : UKF) (x y : ℝ) (t : ℤ)
    (h : s.is_initialized_ = false) :
    ProcessMeasurement s ⟨t, SensorType.LASER, [x, y]⟩ =
      { s with
        x_ := ![x, y, 0, 0, 0]
        P_ := 1
        is_initialized_ := true
        previous_timestamp_ := t } := by
  simp [ProcessMeasurement, firstMeasurement, h, MeasurementPackage.raw]

theorem processMeasurement_first_laser_witness :
    (init 0 0 0).is_initialized_ = false ∧
      ProcessMeasurement (init 0 0 0) ⟨0, SensorType.LASER, [1.0, 1.0]⟩ =
        { init 0 0 0 with
          x_ := ![1.0, 1.0, 0, 0, 0]
          P_ := 1
          is_initialized_ := true
          previous_timestamp_ := 0 } :=
  ⟨rfl, processMeasurement_first_laser (init 0 0 0) 1.0 1.0 0 rfl⟩

/-- C2. A radar measurement `(r, phi, rd)` with time stamp `t` delivered to a
filter that is not initialised leaves `x_ = [r cos phi, r sin phi, 0, 0, 0]`,
`P_` the identity, `is_initialized_ = true` and `previous_timestamp_ = t`. -/
theorem processMeasurement_first_radar (s : UKF) (r phi rd : ℝ) (t : ℤ)
    (h : s.is_initialized_ = false) :
    ProcessMeasurement s ⟨t, SensorType.RADAR, [r, phi, rd]⟩ =
      { s with
        x_ := ![r * Real.cos phi, r * Real.sin phi, 0, 0, 0]
        P_ := 1
        is_initialized_ := true
        previous_timestamp_ := t } := by
  simp [ProcessMeasurement, firstMeasurement, h, MeasurementPackage.raw]

theorem processMeasurement_first_radar_witness :
    (init 0 0 0).is_initialized_ = false ∧
      (ProcessMeasurement (init 0 0 0) ⟨0, SensorType.RADAR, [1.0, 0.0, 0.0]⟩).x_ =
        ![1, 0, 0, 0, 0] ∧
      (ProcessMeasurement (init 0 0 0) ⟨0, SensorType.RADAR, [1.0, 0.0, 0.0]⟩).P_ = 1 := by
  have h := processMeasurement_first_radar (init 0 0 0) 1.0 0.0 0.0 0 rfl
  refine ⟨rfl, ?_, ?_⟩
  · rw [h]
    norm_num
  · rw [h]

/-- C3 (as stated, refuted). After a first measurement at `t0 = 0`, the time
step that `ProcessMeasurement` computes for a second measurement at
`t = 100000` is `0`, not `(100000 - 0) / 1000000 = 0.1`. -/
theorem elapsed_after_zero_timestamp :
    (ProcessMeasurement (init 0 0 0) ⟨0, SensorType.LASER, [1.0, 1.0]⟩).is_initialized_ = true ∧
      (ProcessMeasurement (init 0 0 0) ⟨0, SensorType.LASER, [1.0, 1.0]⟩).previous_timestamp_ = 0 ∧
      elapsed (ProcessMeasurement (init 0 0 0) ⟨0, SensorType.LASER, [1.0, 1.0]⟩)
        ⟨100000, SensorType.LASER, [1.1, 1.0]⟩ = 0 ∧
      elapsed (ProcessMeasurement (init 0 0 0) ⟨0, SensorType.LASER, [1.0, 1.0]⟩)
        ⟨100000, SensorType.LASER, [1.1, 1.0]⟩ ≠ (((100000 - 0 : ℤ) : ℝ)) / 1000000 := by
  have h : ProcessMeasurement (init 0 0 0) ⟨0, SensorType.LASER, [1.0, 1.0]⟩ =
      firstMeasurement (init 0 0 0) ⟨0, SensorType.LASER, [1.0, 1.0]⟩ := by
    simp [ProcessMeasurement, init]
  rw [h]
  refine ⟨rfl, rfl, ?_, ?_⟩
  · simp [elapsed, firstMeasurement]
  · simp only [elapsed, firstMeasurement, ne_eq, not_true_eq_false, if_false]
    norm_num

/-- C3 (amended). For an initialised filter whose `previous_timestamp_` is
`t0`, `ProcessMeasurement` of a measurement with time stamp `t` records `t`
and runs `Prediction` with the time step `elapsed`, then the updates; the time
step is `(t - t0) / 1000000` when `t0 ≠ 0` and `0` when `t0 = 0`. -/
theorem processMeasurement_elapsed (s : UKF) (m : MeasurementPackage)
    (h : s.is_initialized_ = true) :
    ProcessMeasurement s m =
        applyUpdates
          (Prediction { s with previous_timestamp_ := m.timestamp_ } (elapsed s m)) m ∧
      (s.previous_timestamp_ ≠ 0 →
        elapsed s m = ((m.timestamp_ - s.previous_timestamp_ : ℤ) : ℝ) / 1000000) ∧
      (s.previous_timestamp_ = 0 → elapsed s m = 0) := by
  refine ⟨?_, ?_, ?_⟩
  · simp [ProcessMeasurement, h]
  · intro h0
    simp only [elapsed, h0, ne_eq, not_false_eq_true, if_true]
    norm_num
  · intro h0
    simp [elapsed, h0]

/-- C3 (amended), at two inputs: with `previous_timestamp_ = 50000` a
measurement at `t = 150000` is predicted over `0.1` s, and after a first
measurement at `t0 = 0` a measurement at `t = 100000` is predicted over `0` s. -/
theorem processMeasurement_elapsed_witness :
    (({ init 0 0 0 with is_initialized_ := true, previous_timestamp_ := 50000 } : UKF).is_initialized_
        = true ∧
      elapsed { init 0 0 0 with is_initialized_ := true, previous_timestamp_ := 50000 }
        ⟨150000, SensorType.LASER, [1.1, 1.0]⟩ = 0.1) ∧
    ((firstMeasurement (init 0 0 0) ⟨0, SensorType.LASER, [1.0, 1.0]⟩).is_initialized_ = true ∧
      elapsed (firstMeasurement (init 0 0 0) ⟨0, SensorType.LASER, [1.0, 1.0]⟩)
        ⟨100000, SensorType.LASER, [1.1, 1.0]⟩ = 0) := by
  have h := (processMeasurement_elapsed
    { init 0 0 0 with is_initialized_ := true, previous_timestamp_ := 50000 }
    ⟨150000, SensorType.LASER, [1.1, 1.0]⟩ rfl).2.1 (by simp)
  have h0 := (processMeasurement_elapsed
    (firstMeasurement (init 0 0 0) ⟨0, SensorType.LASER, [1.0, 1.0]⟩)
    ⟨100000, SensorType.LASER, [1.1, 1.0]⟩ rfl).2.2 rfl
  refine ⟨⟨rfl, ?_⟩, rfl, h0⟩
  rw [h]
  norm_num

/-! ## Sigma points -/

theorem sum_fin15 (f : Fin 15 → ℝ) :
    ∑ c : Fin 15, f c = f 0 + ∑ i : Fin 7, (f (colPlus i) + f (colMinus i)) := by
  simp only [Fin.sum_univ_succ, Fin.sum_univ_zero, colPlus, colMinus]
  simp only [Fin.val_succ, Fin.val_zero]
  simp only [Fin.succ, Fin.zero_eta]
  norm_num
  ring

theorem colPlus_ne_zero (i : Fin 7) : colPlus i ≠ 0 := by
  intro h
  have := congrArg Fin.val h
  simp [colPlus] at this

theorem colMinus_ne_zero (i : Fin 7) : colMinus i ≠ 0 := by
  intro h
  have := congrArg Fin.val h
  simp [colMinus] at this

/-- The weighted sum over the fifteen sigma-point columns, split into the
centre column and the seven symmetric pairs. -/
theorem sum_weights_mul (f : Fin 15 → ℝ) :
    ∑ c : Fin 15, weights_ c * f c =
      -4 / 3 * f 0 + 1 / 6 * ∑ i : Fin 7, (f (colPlus i) + f (colMinus i)) := by
  rw [sum_fin15, weights_zero, Finset.mul_sum]
  congr 1
  apply Finset.sum_congr rfl
  intro i _
  rw [weights_pos _ (colPlus_ne_zero i), weights_pos _ (colMinus_ne_zero i)]
  ring

theorem sqrt_lambda_add : Real.sqrt (lambda_ + (n_aug_ : ℝ)) = Real.sqrt 3 := by
  have h : lambda_ + (n_aug_ : ℝ) = 3 := lambdaOf_add 7
  rw [h]

theorem Xsig_aug_zero (s : UKF) (r : Fin 7) : Xsig_aug s r 0 = x_aug s r := by
  simp [Xsig_aug]

theorem Xsig_aug_colPlus (s : UKF) (r i : Fin 7) :
    Xsig_aug s r (colPlus i) = x_aug s r + Real.sqrt 3 * sqrtL s r i := by
  have h : (colPlus i).val ≤ 7 := by simp only [colPlus]; omega
  simp only [Xsig_aug, colPlus, Nat.succ_ne_zero, if_false, sqrt_lambda_add]
  rw [dif_pos (by omega)]
  simp

theorem Xsig_aug_colMinus (s : UKF) (r i : Fin 7) :
    Xsig_aug s r (colMinus i) = x_aug s r - Real.sqrt 3 * sqrtL s r i := by
  simp only [Xsig_aug, colMinus, Nat.succ_ne_zero, if_false, sqrt_lambda_add]
  rw [dif_neg (by omega)]
  simp

theorem Xsig_aug_sum (s : UKF) (r : Fin 7) :
    ∑ c : Fin 15, weights_ c * Xsig_aug s r c = x_aug s r := by
  rw [sum_weights_mul]
  simp only [Xsig_aug_zero, Xsig_aug_colPlus, Xsig_aug_colMinus]
  simp only [add_add_sub_cancel, Finset.sum_const, Finset.card_univ, Fintype.card_fin,
    nsmul_eq_mul]
  push_cast
  ring

theorem x_aug_up (s : UKF) (r : Fin 5) : x_aug s (up r) = s.x_ r := by
  simp [x_aug, up]

/-- C8. The fifteen augmented sigma points that `Prediction` generates have
weighted sum `∑ weights_(c) * Xsig_aug.col(c)` equal to the augmented mean
`x_aug = (x_, 0, 0)`.  This holds for every state mean and every covariance
`P_`, symmetric positive definite or not. -/
theorem Xsig_aug_weighted_sum (s : UKF) :
    (fun r => ∑ c : Fin 15, weights_ c * Xsig_aug s r c) = x_aug s ∧
      (∀ i : Fin 5, x_aug s (up i) = s.x_ i) ∧ x_aug s 5 = 0 ∧ x_aug s 6 = 0 :=
  ⟨funext (Xsig_aug_sum s), x_aug_up s, dif_neg (by decide), dif_neg (by decide)⟩

/-! ## Prediction over a zero time step -/

theorem predictPoint_zero (a : Vec 7) (r : Fin 5) : predictPoint 0 a r = a (up r) := by
  fin_cases r
  · show (if |a 4| > 0.001 then a 0 + a 2 / a 4 * (Real.sin (a 3 + a 4 * 0) - Real.sin (a 3))
        else a 0 + a 2 * 0 * Real.cos (a 3)) + 0.5 * a 5 * 0 * 0 * Real.cos (a 3) = a 0
    split_ifs <;> simp
  · show (if |a 4| > 0.001 then a 1 + a 2 / a 4 * (Real.cos (a 3) - Real.cos (a 3 + a 4 * 0))
        else a 1 + a 2 * 0 * Real.sin (a 3)) + 0.5 * a 5 * 0 * 0 * Real.sin (a 3) = a 1
    split_ifs <;> simp
  · show a 2 + a 5 * 0 = a 2
    simp
  · show a 3 + a 4 * 0 + 0.5 * a 6 * 0 * 0 = a 3
    simp
  · show a 4 + a 6 * 0 = a 4
    simp

theorem predictSigma_zero (s : UKF) (r : Fin 5) (c : Fin 15) :
    predictSigma s 0 r c = Xsig_aug s (up r) c :=
  predictPoint_zero _ r

theorem sigmaMean_predictSigma_zero (s : UKF) : sigmaMean (predictSigma s 0) = s.x_ := by
  funext r
  simp only [sigmaMean, predictSigma_zero]
  rw [Xsig_aug_sum, x_aug_up]

/-- C5. `Prediction(0)` leaves the state mean unchanged: the predicted `x_`
equals the input `x_`, for every state mean and every covariance `P_`
(symmetric positive definite or not). -/
theorem prediction_zero_mean (s : UKF) : (Prediction s 0).x_ = s.x_ :=
  sigmaMean_predictSigma_zero s

/-! ## Correctness of the Cholesky loop -/

theorem sum_ite_le {n : ℕ} (j : Fin n) (f : Fin n → ℝ) :
    (∑ t : Fin n, if t ≤ j then f t else 0) = sumBelow j f + f j := by
  have h : f j = ∑ t : Fin n, if t = j then f t else 0 := by simp
  rw [sumBelow, h, ← Finset.sum_add_distrib]
  apply Finset.sum_congr rfl
  intro t _
  rcases lt_trichotomy t j with h1 | h1 | h1
  · simp [h1, le_of_lt h1, ne_of_lt h1]
  · simp [h1]
  · simp [not_le.mpr h1, not_lt.mpr (le_of_lt h1), ne_of_gt h1]

theorem sumBelow_congr {n : ℕ} (k : Fin n) (f g : Fin n → ℝ)
    (h : ∀ t, t < k → f t = g t) : sumBelow k f = sumBelow k g := by
  unfold sumBelow
  apply Finset.sum_congr rfl
  intro t _
  by_cases ht : t < k
  · simp [ht, h t ht]
  · simp [ht]

theorem lltColumn_eq_some {n : ℕ} (m : Mat n n) (k : Fin n)
    (hx : 0 < m k k - sumBelow k (fun t => m k t * m k t)) :
    lltColumn m k = some (fun i j =>
      if j = k then
        if i = k then Real.sqrt (m k k - sumBelow k (fun t => m k t * m k t))
        else if k < i then
          (m i k - sumBelow k (fun t => m i t * m k t)) /
            Real.sqrt (m k k - sumBelow k (fun t => m k t * m k t))
        else m i j
      else m i j) := by
  simp only [lltColumn, not_le.mpr hx, if_false]

theorem lltColumn_other_cols {n : ℕ} (m m1 : Mat n n) (k : Fin n)
    (h : lltColumn m k = some m1) (i j : Fin n) (hj : j ≠ k) : m1 i j = m i j := by
  unfold lltColumn at h
  simp only at h
  split_ifs at h
  simp only [Option.some.injEq] at h
  rw [← h]
  simp [hj]

theorem unblockedFrom_keeps_cols {n : ℕ} (N : ℕ) :
    ∀ (r k : ℕ) (m : Mat n n), N ≤ k → ∀ i j : Fin n, j.val < N →
      (unblockedFrom r k m).1 i j = m i j := by
  intro r
  induction r with
  | zero => intro k m _ i j _; rfl
  | succ r ih =>
    intro k m hk i j hj
    unfold unblockedFrom
    by_cases h : k < n
    · rw [dif_pos h]
      cases hc : lltColumn m ⟨k, h⟩ with
      | none => rfl
      | some m1 =>
        simp only
        rw [ih (k + 1) m1 (by omega) i j hj]
        apply lltColumn_other_cols m m1 ⟨k, h⟩ hc
        intro hjk
        have := congrArg Fin.val hjk
        simp at this
        omega
    · rw [dif_neg h]

/-- The pivot `x` of pass `k` is positive when the input matrix is positive
definite on a leading block that contains index `k`. -/
theorem pivot_pos {n : ℕ} (A m : Mat n n) (N : ℕ) (k : Fin n) (hk : k.val < N)
    (hinv : CholInv A k.val m) (hpd : LeadingPD A N) :
    0 < m k k - sumBelow k (fun t => m k t * m k t) := by
  obtain ⟨hcols, hdiag, heq⟩ := hinv
  obtain ⟨hsymm, hpos⟩ := hpd
  set B : Mat n n := fun i t => if t < k ∧ t ≤ i then m i t else 0 with hB
  set C : Mat n n := fun t i => B i t + if t = i ∧ k ≤ t then 1 else 0 with hC
  have hCtri : C.BlockTriangular id := by
    intro t i hit
    simp only [id] at hit
    simp [hC, hB, not_le.mpr hit, ne_of_gt hit]
  have hCdet : C.det ≠ 0 := by
    rw [Matrix.det_of_upperTriangular hCtri]
    apply Finset.prod_ne_zero_iff.mpr
    intro t _
    by_cases ht : t < k
    · have h1 : C t t = m t t := by simp [hC, hB, ht, not_le.mpr ht]
      rw [h1]
      exact ne_of_gt (hdiag t ht)
    · have h1 : C t t = 1 := by simp [hC, hB, ht, not_lt.mp ht]
      rw [h1]
      exact one_ne_zero
  have hCunit : IsUnit C.det := isUnit_iff_ne_zero.mpr hCdet
  set z : Fin n → ℝ := C⁻¹ *ᵥ Pi.single k 1 with hz
  have hCz : C *ᵥ z = Pi.single k 1 := by
    rw [hz, Matrix.mulVec_mulVec, Matrix.mul_nonsing_inv _ hCunit, Matrix.one_mulVec]
  have hrow_ge : ∀ t, k ≤ t → z t = (Pi.single k 1 : Fin n → ℝ) t := by
    intro t ht
    rw [← hCz]
    simp [Matrix.mulVec, dotProduct, hC, hB, not_lt.mpr ht, ht]
  have hzk : z k = 1 := by
    rw [hrow_ge k le_rfl]
    simp
  have hzgt : ∀ t, k < t → z t = 0 := by
    intro t ht
    rw [hrow_ge t (le_of_lt ht)]
    simp [ne_of_gt ht]
  have hBz : Bᵀ *ᵥ z = 0 := by
    funext t
    by_cases ht : t < k
    · have h1 := congrFun hCz t
      simp only [Matrix.mulVec, dotProduct, hC, not_le.mpr ht, and_false, if_false,
        add_zero, Pi.single_apply, ne_of_lt ht] at h1
      simpa [Matrix.mulVec, dotProduct] using h1
    · simp [Matrix.mulVec, dotProduct, hB, ht]
  have hzne : z ≠ 0 := by
    intro h
    rw [h] at hzk
    simp at hzk
  have hsupp : ∀ i : Fin n, N ≤ i.val → z i = 0 := by
    intro i hi
    apply hzgt i
    show k.val < i.val
    omega
  have hquad := hpos z hsupp hzne
  have hBB : ∀ i j : Fin n, j < k → j ≤ i → (B * Bᵀ) i j = A i j := by
    intro i j hj hji
    rw [← heq i j hj hji, ← sum_ite_le]
    simp only [Matrix.mul_apply, Matrix.transpose_apply, hB]
    apply Finset.sum_congr rfl
    intro t _
    by_cases htj : t ≤ j
    · simp [htj, lt_of_le_of_lt htj hj, le_trans htj hji]
    · simp [htj]
  have hBBsymm : ∀ i j : Fin n, (B * Bᵀ) i j = (B * Bᵀ) j i := by
    intro i j
    simp only [Matrix.mul_apply, Matrix.transpose_apply]
    apply Finset.sum_congr rfl
    intro t _
    ring
  have hBBkk : (B * Bᵀ) k k = sumBelow k (fun t => m k t * m k t) := by
    simp only [Matrix.mul_apply, Matrix.transpose_apply, hB, sumBelow]
    apply Finset.sum_congr rfl
    intro t _
    by_cases ht : t < k
    · simp [ht, le_of_lt ht]
    · simp [ht]
  have hAB : ∀ i j : Fin n, i ≤ k → j ≤ k → ¬ (i = k ∧ j = k) → A i j = (B * Bᵀ) i j := by
    intro i j hi hj hne
    have hiN : i.val < N := lt_of_le_of_lt (show i.val ≤ k.val from hi) hk
    have hjN : j.val < N := lt_of_le_of_lt (show j.val ≤ k.val from hj) hk
    rcases le_total i j with hij | hij
    · have hik : i < k := by
        rcases lt_or_eq_of_le hi with h | h
        · exact h
        · exact absurd ⟨h, le_antisymm hj (h ▸ hij)⟩ hne
      rw [hBBsymm, hBB j i hik hij, hsymm i j hiN hjN]
    · have hjk : j < k := by
        rcases lt_or_eq_of_le hj with h | h
        · exact h
        · exact absurd ⟨le_antisymm hi (h ▸ hij), h⟩ hne
      rw [hBB i j hjk hij]
  have hterm : ∀ i j : Fin n, z i * (A i j * z j) =
      z i * ((B * Bᵀ) i j * z j) +
        if i = k ∧ j = k then m k k - sumBelow k (fun t => m k t * m k t) else 0 := by
    intro i j
    by_cases hi : k < i
    · simp [hzgt i hi, ne_of_gt hi]
    by_cases hj : k < j
    · simp [hzgt j hj, ne_of_gt hj]
    by_cases hkk : i = k ∧ j = k
    · obtain ⟨h1, h2⟩ := hkk
      rw [h1, h2]
      simp only [and_self, if_true, hzk, hBBkk]
      rw [← hcols k k le_rfl]
      ring
    · rw [if_neg hkk, hAB i j (not_lt.mp hi) (not_lt.mp hj) hkk]
      ring
  have hsum : z ⬝ᵥ A *ᵥ z =
      z ⬝ᵥ (B * Bᵀ) *ᵥ z + (m k k - sumBelow k (fun t => m k t * m k t)) := by
    simp only [dotProduct, Matrix.mulVec, Finset.mul_sum]
    simp_rw [hterm, Finset.sum_add_distrib]
    congr 1
    simp [ite_and]
  have hzero : (B * Bᵀ) *ᵥ z = 0 := by
    rw [← Matrix.mulVec_mulVec, hBz, Matrix.mulVec_zero]
  rw [hsum, hzero, dotProduct_zero, zero_add] at hquad
  exact hquad

/-- One pass of the Cholesky loop with a positive pivot succeeds and
re-establishes the invariant. -/
theorem lltColumn_of_pos {n : ℕ} (A m : Mat n n) (k : Fin n) (hinv : CholInv A k.val m)
    (hx : 0 < m k k - sumBelow k (fun t => m k t * m k t)) :
    ∃ m1, lltColumn m k = some m1 ∧ CholInv A (k.val + 1) m1 := by
  obtain ⟨hcols, hdiag, heq⟩ := hinv
  refine ⟨_, lltColumn_eq_some m k hx, ?_⟩
  set x := m k k - sumBelow k (fun t => m k t * m k t) with hxdef
  set m1 : Mat n n := fun i j =>
      if j = k then
        if i = k then Real.sqrt x
        else if k < i then (m i k - sumBelow k (fun t => m i t * m k t)) / Real.sqrt x
        else m i j
      else m i j with hm1
  have hsq : 0 < Real.sqrt x := Real.sqrt_pos.mpr hx
  have h_other : ∀ i j : Fin n, j ≠ k → m1 i j = m i j := by
    intro i j hj
    simp [hm1, hj]
  have h_kk : m1 k k = Real.sqrt x := by simp [hm1]
  have h_ik : ∀ i : Fin n, k < i →
      m1 i k = (m i k - sumBelow k (fun t => m i t * m k t)) / Real.sqrt x := by
    intro i hi
    simp [hm1, ne_of_gt hi, hi]
  have h_sum : ∀ (i j l : Fin n), l ≤ k →
      sumBelow l (fun t => m1 i t * m1 j t) = sumBelow l (fun t => m i t * m j t) := by
    intro i j l hl
    apply sumBelow_congr
    intro t ht
    have htk : t ≠ k := ne_of_lt (lt_of_lt_of_le ht hl)
    rw [h_other i t htk, h_other j t htk]
  refine ⟨?_, ?_, ?_⟩
  · intro i j hj
    have hjk : j ≠ k := by
      intro h
      rw [h] at hj
      omega
    rw [h_other i j hjk]
    exact hcols i j (by omega)
  · intro j hj
    by_cases hjk : j = k
    · rw [hjk, h_kk]
      exact hsq
    · rw [h_other j j hjk]
      apply hdiag j
      have : j.val ≠ k.val := fun h => hjk (Fin.ext h)
      omega
  · intro i j hj hji
    by_cases hjk : j = k
    · rw [hjk] at hji ⊢
      rw [h_sum i k k le_rfl, h_kk]
      rcases lt_or_eq_of_le hji with hlt | heq1
      · rw [h_ik i hlt, div_mul_cancel₀ _ (ne_of_gt hsq)]
        rw [← hcols i k le_rfl]
        ring
      · rw [← heq1, h_kk, Real.mul_self_sqrt (le_of_lt hx), ← hcols k k le_rfl, hxdef]
        ring
    · have hlt : j.val < k.val := by
        have : j.val ≠ k.val := fun h => hjk (Fin.ext h)
        omega
      rw [h_sum i j j (le_of_lt hlt), h_other i j hjk, h_other j j hjk]
      exact heq i j hlt hji

/-- One pass of the Cholesky loop succeeds and re-establishes the invariant. -/
theorem lltColumn_step {n : ℕ} (A m : Mat n n) (N : ℕ) (k : Fin n) (hk : k.val < N)
    (hinv : CholInv A k.val m) (hpd : LeadingPD A N) :
    ∃ m1, lltColumn m k = some m1 ∧ CholInv A (k.val + 1) m1 :=
  lltColumn_of_pos A m k hinv (pivot_pos A m N k hk hinv hpd)

/-- The Cholesky equations on the first `N` columns only depend on those
columns. -/
theorem cholInv_transfer {n : ℕ} (A m mf : Mat n n) (N : ℕ) (hinv : CholInv A N m)
    (hsame : ∀ i j : Fin n, j.val < N → mf i j = m i j) :
    (∀ j : Fin n, j.val < N → 0 < mf j j) ∧
      ∀ i j : Fin n, j.val < N → j ≤ i →
        sumBelow j (fun t => mf i t * mf j t) + mf i j * mf j j = A i j := by
  obtain ⟨_, hdiag, heq⟩ := hinv
  constructor
  · intro j hj
    rw [hsame j j hj]
    exact hdiag j hj
  · intro i j hj hji
    have h1 : sumBelow j (fun t => mf i t * mf j t) = sumBelow j (fun t => m i t * m j t) := by
      apply sumBelow_congr
      intro t ht
      have htN : t.val < N := lt_trans (show t.val < j.val from ht) hj
      rw [hsame i t htN, hsame j t htN]
    rw [h1, hsame i j hj, hsame j j hj]
    exact heq i j hj hji

/-- The Cholesky loop on a matrix that is positive definite on its leading
`N` x `N` block leaves the first `N` columns with positive diagonal and
satisfying the Cholesky equations, whatever happens in the later passes. -/
theorem unblockedFrom_leading {n : ℕ} (A : Mat n n) (N : ℕ) (hN : N ≤ n)
    (hpd : LeadingPD A N) :
    ∀ (r k : ℕ) (m : Mat n n), k ≤ N → N ≤ k + r → CholInv A k m →
      (∀ j : Fin n, j.val < N → 0 < (unblockedFrom r k m).1 j j) ∧
        ∀ i j : Fin n, j.val < N → j ≤ i →
          sumBelow j (fun t => (unblockedFrom r k m).1 i t * (unblockedFrom r k m).1 j t)
            + (unblockedFrom r k m).1 i j * (unblockedFrom r k m).1 j j = A i j := by
  intro r
  induction r with
  | zero =>
    intro k m hk hr hinv
    have hkN : k = N := by omega
    rw [hkN] at hinv
    exact cholInv_transfer A m _ N hinv (fun _ _ _ => rfl)
  | succ r ih =>
    intro k m hk hr hinv
    by_cases hkN : k = N
    · rw [hkN] at hinv
      exact cholInv_transfer A m _ N hinv
        (unblockedFrom_keeps_cols N (r + 1) k m (le_of_eq hkN.symm))
    · have hlt : k < N := lt_of_le_of_ne hk hkN
      have hkn : k < n := lt_of_lt_of_le hlt hN
      obtain ⟨m1, hm1, hinv1⟩ := lltColumn_step A m N ⟨k, hkn⟩ hlt hinv hpd
      have hunf : unblockedFrom (r + 1) k m = unblockedFrom r (k + 1) m1 := by
        rw [unblockedFrom, dif_pos hkn, hm1]
      rw [hunf]
      exact ih (k + 1) m1 hlt (by omega) hinv1

theorem cholInv_start {n : ℕ} (A : Mat n n) : CholInv A 0 A :=
  ⟨fun _ _ _ => rfl, fun _ hj => absurd hj (Nat.not_lt_zero _),
    fun _ _ hj _ => absurd hj (Nat.not_lt_zero _)⟩

/-- The factor `L = A.llt().matrixL()` of a matrix that is positive definite on
its leading `N` x `N` block: positive diagonal and `(L * Lᵀ) a b = A a b` on
that block. -/
theorem matrixL_leading {n : ℕ} (A : Mat n n) (N : ℕ) (hN : N ≤ n) (hpd : LeadingPD A N) :
    (∀ j : Fin n, j.val < N → 0 < (llt A).matrixL j j) ∧
      ∀ a b : Fin n, a.val < N → b.val < N →
        ∑ t : Fin n, (llt A).matrixL a t * (llt A).matrixL b t = A a b := by
  obtain ⟨hdiag, heq⟩ :=
    unblockedFrom_leading A N hN hpd n 0 A (Nat.zero_le _) (by omega) (cholInv_start A)
  have hlow : ∀ a b : Fin n, b.val < N → b ≤ a →
      ∑ t : Fin n, (llt A).matrixL a t * (llt A).matrixL b t = A a b := by
    intro a b hb hba
    rw [← heq a b hb hba, ← sum_ite_le]
    apply Finset.sum_congr rfl
    intro t _
    by_cases htb : t ≤ b
    · simp [LLT.matrixL, llt, unblocked, htb, le_trans htb hba]
    · simp [LLT.matrixL, htb]
  constructor
  · intro j hj
    simpa [LLT.matrixL, llt, unblocked] using hdiag j hj
  · intro a b ha hb
    rcases le_total b a with h | h
    · exact hlow a b hb h
    · rw [hpd.1 a b ha hb, ← hlow b a ha h]
      apply Finset.sum_congr rfl
      intro t _
      ring

/-! ## The augmented covariance -/

theorem sum_fin7 (f : Fin 7 → ℝ) : ∑ i : Fin 7, f i = ∑ i : Fin 5, f (up i) + f 5 + f 6 := by
  simp only [Fin.sum_univ_succ, Fin.sum_univ_zero, up]
  simp only [Fin.succ, Fin.castLE, Fin.zero_eta]
  norm_num
  have h5 : f 5 = f ⟨5, by decide⟩ := rfl
  have h6 : f 6 = f ⟨6, by decide⟩ := rfl
  rw [h5, h6]
  ring

theorem P_aug_up (s : UKF) (i j : Fin 5) : P_aug s (up i) (up j) = s.P_ i j := by
  simp [P_aug, up]

theorem up_val (i : Fin 5) : (up i).val = i.val := rfl

theorem exists_up (i : Fin 7) (h : i.val < 5) : ∃ j : Fin 5, up j = i :=
  ⟨⟨i.val, h⟩, Fin.ext rfl⟩

/-- The quadratic form of `P_aug` at a vector supported on the state block is
the quadratic form of `P_` at its restriction. -/
theorem P_aug_quadratic (s : UKF) (z : Fin 7 → ℝ) (h5 : z 5 = 0) (h6 : z 6 = 0) :
    z ⬝ᵥ P_aug s *ᵥ z = (fun i => z (up i)) ⬝ᵥ s.P_ *ᵥ (fun i => z (up i)) := by
  simp only [dotProduct, Matrix.mulVec]
  rw [sum_fin7, h5, h6, zero_mul, zero_mul, add_zero, add_zero]
  apply Finset.sum_congr rfl
  intro i _
  rw [sum_fin7, h5, h6, mul_zero, mul_zero, add_zero, add_zero]
  simp only [P_aug_up]

theorem P_aug_leadingPD (s : UKF) (hP : s.P_.PosDef) : LeadingPD (P_aug s) 5 := by
  constructor
  · intro i j hi hj
    obtain ⟨a, rfl⟩ := exists_up i hi
    obtain ⟨b, rfl⟩ := exists_up j hj
    rw [P_aug_up, P_aug_up]
    have h := hP.1.apply a b
    simpa using h.symm
  · intro z hz hne
    have h5 : z 5 = 0 := hz 5 (by decide)
    have h6 : z 6 = 0 := hz 6 (by decide)
    rw [P_aug_quadratic s z h5 h6]
    have hne5 : (fun i => z (up i)) ≠ 0 := by
      intro h0
      apply hne
      funext i
      by_cases hi : i.val < 5
      · obtain ⟨a, rfl⟩ := exists_up i hi
        exact congrFun h0 a
      · exact hz i (not_lt.mp hi)
    have h := hP.2 _ hne5
    simpa using h

/-- For a positive definite `P_` the square root matrix `L` of `Prediction`
has `(L * Lᵀ) (up a) (up b) = P_ a b` on the state block. -/
theorem sqrtL_mul (s : UKF) (hP : s.P_.PosDef) (a b : Fin 5) :
    ∑ t : Fin 7, sqrtL s (up a) t * sqrtL s (up b) t = s.P_ a b := by
  rw [← P_aug_up]
  exact (matrixL_leading (P_aug s) 5 (by norm_num) (P_aug_leadingPD s hP)).2
    (up a) (up b) a.isLt b.isLt

/-! ## Covariance predicted over a zero time step -/

theorem normalizeAngle_of_abs_lt (d : ℝ) (h : |d| < Real.pi) : normalizeAngle d = d :=
  normalizeAngle_of_mem d (le_of_lt (abs_lt.mp h).1) (abs_lt.mp h).2

theorem normalizeAngle_neg_of_abs_lt (d : ℝ) (h : |d| < Real.pi) :
    normalizeAngle (-d) = -d :=
  normalizeAngle_of_abs_lt (-d) (by rwa [abs_neg])

theorem stateDiff_zero_centre (s : UKF) (r : Fin 5) :
    stateDiff (predictSigma s 0) s.x_ 0 r = 0 := by
  have h0 : normalizeAngle 0 = 0 :=
    normalizeAngle_of_abs_lt 0 (by simpa using Real.pi_pos)
  unfold stateDiff
  split_ifs <;> simp [predictSigma_zero, Xsig_aug_zero, x_aug_up, h0]

theorem stateDiff_zero_colPlus (s : UKF) (i : Fin 7)
    (hang : |Real.sqrt 3 * sqrtL s 3 i| < Real.pi) (r : Fin 5) :
    stateDiff (predictSigma s 0) s.x_ (colPlus i) r = Real.sqrt 3 * sqrtL s (up r) i := by
  unfold stateDiff
  simp only [predictSigma_zero, Xsig_aug_colPlus, x_aug_up, add_sub_cancel_left]
  split_ifs with h
  · rw [h]
    exact normalizeAngle_of_abs_lt _ hang
  · rfl

theorem stateDiff_zero_colMinus (s : UKF) (i : Fin 7)
    (hang : |Real.sqrt 3 * sqrtL s 3 i| < Real.pi) (r : Fin 5) :
    stateDiff (predictSigma s 0) s.x_ (colMinus i) r = -(Real.sqrt 3 * sqrtL s (up r) i) := by
  unfold stateDiff
  simp only [predictSigma_zero, Xsig_aug_colMinus, x_aug_up, sub_sub_cancel_left]
  split_ifs with h
  · rw [h]
    exact normalizeAngle_neg_of_abs_lt _ hang
  · rfl

theorem sqrt_three_mul_self : Real.sqrt 3 * Real.sqrt 3 = 3 :=
  Real.mul_self_sqrt (by norm_num)

/-- Over a zero time step, when `normalizeAngle` leaves every heading
difference `± sqrt(3) * L(3,i)` as it is, the weighted covariance of the
predicted sigma points is `L * Lᵀ` on the state block. -/
theorem sigmaCov_zero_eq (s : UKF)
    (hang : ∀ i : Fin 7, |Real.sqrt 3 * sqrtL s 3 i| < Real.pi) (a b : Fin 5) :
    sigmaCov (predictSigma s 0) s.x_ a b =
      ∑ t : Fin 7, sqrtL s (up a) t * sqrtL s (up b) t := by
  have hassoc : ∀ c : Fin 15,
      weights_ c * stateDiff (predictSigma s 0) s.x_ c a * stateDiff (predictSigma s 0) s.x_ c b =
        weights_ c *
          (stateDiff (predictSigma s 0) s.x_ c a * stateDiff (predictSigma s 0) s.x_ c b) :=
    fun c => mul_assoc _ _ _
  simp only [sigmaCov, hassoc]
  rw [sum_weights_mul, Finset.mul_sum]
  simp only [stateDiff_zero_centre, mul_zero, zero_add]
  apply Finset.sum_congr rfl
  intro i _
  rw [stateDiff_zero_colPlus s i (hang i), stateDiff_zero_colPlus s i (hang i),
    stateDiff_zero_colMinus s i (hang i), stateDiff_zero_colMinus s i (hang i)]
  linear_combination (1 / 3 * sqrtL s (up a) i * sqrtL s (up b) i) * sqrt_three_mul_self

theorem prediction_zero_P (s : UKF) :
    (Prediction s 0).P_ = sigmaCov (predictSigma s 0) s.x_ := by
  show sigmaCov (predictSigma s 0) (sigmaMean (predictSigma s 0)) = _
  rw [sigmaMean_predictSigma_zero]

/-- The covariance is kept by `Prediction(0)` when `P_` is positive definite
and no heading difference is wrapped. -/
theorem cov_kept_of_small_heading (s : UKF) (hP : s.P_.PosDef)
    (hang : ∀ i : Fin 7, |Real.sqrt 3 * sqrtL s 3 i| < Real.pi) :
    (Prediction s 0).P_ = s.P_ := by
  rw [prediction_zero_P]
  funext a b
  rw [sigmaCov_zero_eq s hang, sqrtL_mul s hP]

theorem sqrtL_sq_le (s : UKF) (hP : s.P_.PosDef) (a : Fin 5) (i : Fin 7) :
    sqrtL s (up a) i * sqrtL s (up a) i ≤ s.P_ a a := by
  rw [← sqrtL_mul s hP a a]
  exact Finset.single_le_sum (f := fun t => sqrtL s (up a) t * sqrtL s (up a) t)
    (fun t _ => mul_self_nonneg _) (Finset.mem_univ i)

/-- A heading variance below `π² / 3` keeps every sigma-point heading
difference `± sqrt(3) * L(3,i)` strictly inside `(-π, π)`. -/
theorem heading_small (s : UKF) (hP : s.P_.PosDef) (h33 : s.P_ 3 3 < Real.pi ^ 2 / 3)
    (i : Fin 7) : |Real.sqrt 3 * sqrtL s 3 i| < Real.pi := by
  have h1 : sqrtL s 3 i * sqrtL s 3 i ≤ s.P_ 3 3 := sqrtL_sq_le s hP 3 i
  apply abs_lt_of_sq_lt_sq _ (le_of_lt Real.pi_pos)
  have h2 : (Real.sqrt 3 * sqrtL s 3 i) ^ 2 = 3 * (sqrtL s 3 i * sqrtL s 3 i) := by
    linear_combination (sqrtL s 3 i * sqrtL s 3 i) * sqrt_three_mul_self
  rw [h2]
  linarith

theorem one_lt_pi_sq_div_three : (1 : ℝ) < Real.pi ^ 2 / 3 := by
  have h := Real.pi_gt_three
  nlinarith

/-- C6 (amended). For every state mean `x_` and every symmetric positive
definite `P_` for which `normalizeAngle` leaves the sigma-point heading
differences unchanged (`|sqrt(3) * L(3,i)| < π` for the seven columns of the
square root matrix `L`), `Prediction(0)` leaves the covariance unchanged. -/
theorem prediction_zero_cov (s : UKF) (hP : s.P_.PosDef)
    (hang : ∀ i : Fin 7, |Real.sqrt 3 * sqrtL s 3 i| < Real.pi) :
    (Prediction s 0).P_ = s.P_ :=
  cov_kept_of_small_heading s hP hang

theorem prediction_zero_cov_witness :
    ({ init 0 0 0 with P_ := 1 } : UKF).P_.PosDef ∧
      (∀ i : Fin 7, |Real.sqrt 3 * sqrtL { init 0 0 0 with P_ := 1 } 3 i| < Real.pi) ∧
      (Prediction { init 0 0 0 with P_ := 1 } 0).P_ = 1 :=
  have hP : ({ init 0 0 0 with P_ := 1 } : UKF).P_.PosDef := Matrix.PosDef.one
  have hang : ∀ i : Fin 7, |Real.sqrt 3 * sqrtL { init 0 0 0 with P_ := 1 } 3 i| < Real.pi :=
    heading_small _ hP (by simpa using one_lt_pi_sq_div_three)
  ⟨hP, hang, prediction_zero_cov _ hP hang⟩

/-! ## The square root matrix of a diagonal covariance -/

theorem sqrtL_upper (s : UKF) (i j : Fin 7) (h : i < j) : sqrtL s i j = 0 := by
  simp [sqrtL, LLT.matrixL, not_le.mpr h]

theorem sqrtL_diag_pos (s : UKF) (hP : s.P_.PosDef) (a : Fin 5) :
    0 < sqrtL s (up a) (up a) :=
  (matrixL_leading (P_aug s) 5 (by norm_num) (P_aug_leadingPD s hP)).1 (up a) a.isLt

theorem up_lt_up (a b : Fin 5) : up a < up b ↔ a < b := Iff.rfl

theorem sqrtL_diagonal_below (s : UKF) (d : Fin 5 → ℝ) (hd : ∀ i, 0 < d i)
    (hP : s.P_ = Matrix.diagonal d) :
    ∀ (k : ℕ) (b : Fin 5), b.val = k → ∀ a : Fin 5, b < a → sqrtL s (up a) (up b) = 0 := by
  have hPD : s.P_.PosDef := by
    rw [hP]
    exact Matrix.PosDef.diagonal hd
  intro k
  induction k using Nat.strong_induction_on with
  | _ k ih =>
    intro b hb a hba
    have h := sqrtL_mul s hPD a b
    rw [hP, Matrix.diagonal_apply_ne _ (ne_of_gt hba)] at h
    rw [Finset.sum_eq_single (up b)] at h
    · rcases mul_eq_zero.mp h with h1 | h1
      · exact h1
      · exact absurd h1 (ne_of_gt (sqrtL_diag_pos s hPD b))
    · intro t _ htb
      rcases lt_or_gt_of_ne htb with hlt | hgt
      · have ht5 : t.val < 5 := lt_trans (show t.val < (up b).val from hlt) b.isLt
        obtain ⟨c, rfl⟩ := exists_up t ht5
        have hcb : c < b := hlt
        rw [ih c.val (by rw [← hb]; exact hcb) c rfl b hcb, mul_zero]
      · rw [sqrtL_upper s (up b) t hgt, mul_zero]
    · intro hnot
      exact absurd (Finset.mem_univ _) hnot

/-- For a diagonal covariance `P_ = diag d` with positive entries, the state
rows of the square root matrix are `sqrt (d a)` on the diagonal and zero
elsewhere. -/
theorem sqrtL_diagonal (s : UKF) (d : Fin 5 → ℝ) (hd : ∀ i, 0 < d i)
    (hP : s.P_ = Matrix.diagonal d) (a : Fin 5) (t : Fin 7) :
    sqrtL s (up a) t = if t = up a then Real.sqrt (d a) else 0 := by
  have hPD : s.P_.PosDef := by
    rw [hP]
    exact Matrix.PosDef.diagonal hd
  have hoff : ∀ t : Fin 7, t ≠ up a → sqrtL s (up a) t = 0 := by
    intro t hta
    rcases lt_or_gt_of_ne hta with hlt | hgt
    · have ht5 : t.val < 5 := lt_trans (show t.val < (up a).val from hlt) a.isLt
      obtain ⟨c, rfl⟩ := exists_up t ht5
      exact sqrtL_diagonal_below s d hd hP c.val c rfl a hlt
    · exact sqrtL_upper s (up a) t hgt
  by_cases hta : t = up a
  · rw [if_pos hta, hta]
    have h := sqrtL_mul s hPD a a
    rw [hP, Matrix.diagonal_apply_eq, Finset.sum_eq_single (up a)] at h
    · symm
      rw [Real.sqrt_eq_iff_mul_self_eq (le_of_lt (hd a)) (le_of_lt (sqrtL_diag_pos s hPD a))]
      exact h.symm
    · intro t _ ht
      rw [hoff t ht, mul_zero]
    · intro hnot
      exact absurd (Finset.mem_univ _) hnot
  · rw [if_neg hta]
    exact hoff t hta

/-! ## A covariance that `Prediction(0)` changes -/

theorem normalizeAngle_sub_turn (d : ℝ) (h1 : Real.pi ≤ d) (h2 : d < 3 * Real.pi) :
    normalizeAngle d = d - 2 * Real.pi := by
  have hpi : 0 < 2 * Real.pi := by positivity
  have hfloor : ⌊(d + Real.pi) / (2 * Real.pi)⌋ = 1 := by
    rw [Int.floor_eq_iff]
    constructor
    · rw [le_div_iff₀ hpi]
      push_cast
      linarith
    · rw [div_lt_iff₀ hpi]
      push_cast
      linarith
  simp [normalizeAngle, hfloor]

theorem normalizeAngle_add_turn (d : ℝ) (h1 : -(3 * Real.pi) ≤ d) (h2 : d < -Real.pi) :
    normalizeAngle d = d + 2 * Real.pi := by
  have hpi : 0 < 2 * Real.pi := by positivity
  have hfloor : ⌊(d + Real.pi) / (2 * Real.pi)⌋ = -1 := by
    rw [Int.floor_eq_iff]
    constructor
    · rw [le_div_iff₀ hpi]
      push_cast
      linarith
    · rw [div_lt_iff₀ hpi]
      push_cast
      linarith
  simp [normalizeAngle, hfloor]

theorem sqrt_three_gt : (1.7 : ℝ) < Real.sqrt 3 := by
  have h := sqrt_three_mul_self
  have h0 := Real.sqrt_nonneg 3
  by_contra hc
  push_neg at hc
  nlinarith

theorem sqrt_three_lt : Real.sqrt 3 < (1.8 : ℝ) := by
  have h := sqrt_three_mul_self
  have h0 := Real.sqrt_nonneg 3
  by_contra hc
  push_neg at hc
  nlinarith

theorem stateDiff_zero_colPlus_yaw (s : UKF) (i : Fin 7) :
    stateDiff (predictSigma s 0) s.x_ (colPlus i) 3 =
      normalizeAngle (Real.sqrt 3 * sqrtL s 3 i) := by
  unfold stateDiff
  simp only [predictSigma_zero, Xsig_aug_colPlus, x_aug_up, add_sub_cancel_left, if_true]
  rfl

theorem stateDiff_zero_colMinus_yaw (s : UKF) (i : Fin 7) :
    stateDiff (predictSigma s 0) s.x_ (colMinus i) 3 =
      normalizeAngle (-(Real.sqrt 3 * sqrtL s 3 i)) := by
  unfold stateDiff
  simp only [predictSigma_zero, Xsig_aug_colMinus, x_aug_up, sub_sub_cancel_left, if_true]
  rfl

theorem wideHeading_posDef : wideHeading.P_.PosDef := by
  show (Matrix.diagonal ![(1 : ℝ), 1, 1, 4, 1]).PosDef
  apply Matrix.PosDef.diagonal
  intro i
  fin_cases i <;> norm_num

theorem wideHeading_sqrtL (t : Fin 7) :
    sqrtL wideHeading 3 t = if t = 3 then 2 else 0 := by
  have h := sqrtL_diagonal wideHeading ![1, 1, 1, 4, 1]
    (by intro i; fin_cases i <;> norm_num) rfl 3 t
  have h4 : Real.sqrt 4 = 2 := by
    rw [Real.sqrt_eq_iff_mul_self_eq (by norm_num) (by norm_num)]
    norm_num
  have hup : up 3 = (3 : Fin 7) := rfl
  rw [hup] at h
  rw [h]
  have hd : (![1, 1, 1, 4, 1] : Fin 5 → ℝ) 3 = 4 := rfl
  rw [hd, h4]

theorem wideHeading_P33 :
    (Prediction wideHeading 0).P_ 3 3 = (2 * Real.pi - 2 * Real.sqrt 3) ^ 2 / 3 := by
  have h0 : normalizeAngle 0 = 0 :=
    normalizeAngle_of_abs_lt 0 (by simpa using Real.pi_pos)
  have hpi1 := Real.pi_gt_d2
  have hpi2 := Real.pi_lt_d2
  have hs1 := sqrt_three_gt
  have hs2 := sqrt_three_lt
  have hassoc : ∀ c : Fin 15,
      weights_ c * stateDiff (predictSigma wideHeading 0) wideHeading.x_ c 3 *
          stateDiff (predictSigma wideHeading 0) wideHeading.x_ c 3 =
        weights_ c * (stateDiff (predictSigma wideHeading 0) wideHeading.x_ c 3 *
          stateDiff (predictSigma wideHeading 0) wideHeading.x_ c 3) :=
    fun c => mul_assoc _ _ _
  rw [prediction_zero_P]
  simp only [sigmaCov, hassoc]
  rw [sum_weights_mul]
  simp only [stateDiff_zero_centre, mul_zero, zero_add, stateDiff_zero_colPlus_yaw,
    stateDiff_zero_colMinus_yaw, wideHeading_sqrtL]
  rw [Finset.sum_eq_single (3 : Fin 7)]
  · simp only [if_true]
    rw [normalizeAngle_sub_turn _ (by linarith) (by linarith),
      normalizeAngle_add_turn _ (by linarith) (by linarith)]
    ring
  · intro t _ ht
    simp [ht, h0]
  · intro hnot
    exact absurd (Finset.mem_univ _) hnot

/-- C6 (as stated, refuted). The covariance `diag(1, 1, 1, 4, 1)` is symmetric
positive definite, yet `Prediction(0)` turns its heading variance 4 into
`(2π - 2 sqrt 3)² / 3`, which is smaller than 3. -/
theorem prediction_zero_cov_changed :
    wideHeading.P_.PosDef ∧ wideHeading.P_ 3 3 = 4 ∧
      (Prediction wideHeading 0).P_ 3 3 < 3 ∧
      (Prediction wideHeading 0).P_ ≠ wideHeading.P_ := by
  have hpi1 := Real.pi_gt_d2
  have hpi2 := Real.pi_lt_d2
  have hs1 := sqrt_three_gt
  have hs2 := sqrt_three_lt
  have h33 : wideHeading.P_ 3 3 = 4 := rfl
  have hlt : (Prediction wideHeading 0).P_ 3 3 < 3 := by
    rw [wideHeading_P33]
    have ha : 0 < 2 * Real.pi - 2 * Real.sqrt 3 := by linarith
    have hb : 2 * Real.pi - 2 * Real.sqrt 3 < 2.9 := by linarith
    nlinarith
  refine ⟨wideHeading_posDef, h33, hlt, ?_⟩
  intro heq
  rw [heq, h33] at hlt
  norm_num at hlt

/-! ## Laser update from the identity covariance -/

theorem H_laser_apply (i : Fin 2) (j : Fin 5) :
    H_laser_ i j = if j.val = i.val then 1 else 0 := by
  fin_cases i <;> fin_cases j <;> simp [H_laser_]

theorem lidarS_of_P_one (s : UKF) (hP : s.P_ = 1) :
    lidarS s = Matrix.diagonal
      ![1 + s.std_laspx_ * s.std_laspx_, 1 + s.std_laspy_ * s.std_laspy_] := by
  ext i j
  simp only [lidarS, hP, Matrix.mul_one, Matrix.add_apply, Matrix.mul_apply,
    Matrix.transpose_apply, H_laser_apply, Fin.sum_univ_succ, Fin.sum_univ_zero]
  fin_cases i <;> fin_cases j <;> simp [R_laser_]

theorem lidarS_inv_of_P_one (s : UKF) (hP : s.P_ = 1) :
    (lidarS s)⁻¹ = Matrix.diagonal
      ![1 / (1 + s.std_laspx_ * s.std_laspx_), 1 / (1 + s.std_laspy_ * s.std_laspy_)] := by
  have hx : (1 + s.std_laspx_ * s.std_laspx_) ≠ 0 := by nlinarith [mul_self_nonneg s.std_laspx_]
  have hy : (1 + s.std_laspy_ * s.std_laspy_) ≠ 0 := by nlinarith [mul_self_nonneg s.std_laspy_]
  apply Matrix.inv_eq_right_inv
  rw [lidarS_of_P_one s hP, Matrix.diagonal_mul_diagonal]
  ext i j
  fin_cases i <;> fin_cases j <;> simp [hx, hy]

/-- With `P_` the identity, the laser update moves each position estimate
towards the measured value by the fraction `1 / (1 + std²)`. -/
theorem updateLidar_of_P_one (s : UKF) (m : MeasurementPackage) (hP : s.P_ = 1) :
    (UpdateLidar s m).x_ 0 =
        s.x_ 0 + (m.raw 0 - s.x_ 0) / (1 + s.std_laspx_ * s.std_laspx_) ∧
      (UpdateLidar s m).x_ 1 =
        s.x_ 1 + (m.raw 1 - s.x_ 1) / (1 + s.std_laspy_ * s.std_laspy_) := by
  constructor
  · simp only [UpdateLidar, lidarK, lidarY, lidarS_inv_of_P_one s hP, hP, Matrix.one_mul,
      Pi.add_apply, Pi.sub_apply, Matrix.mulVec, dotProduct, Matrix.mul_apply,
      Matrix.transpose_apply, H_laser_apply, Fin.sum_univ_succ, Fin.sum_univ_zero]
    simp
    ring
  · simp only [UpdateLidar, lidarK, lidarY, lidarS_inv_of_P_one s hP, hP, Matrix.one_mul,
      Pi.add_apply, Pi.sub_apply, Matrix.mulVec, dotProduct, Matrix.mul_apply,
      Matrix.transpose_apply, H_laser_apply, Fin.sum_univ_succ, Fin.sum_univ_zero]
    simp
    ring

/-! ## Two laser measurements -/

theorem processMeasurement_of_uninit (s : UKF) (m : MeasurementPackage)
    (h : s.is_initialized_ = false) : ProcessMeasurement s m = firstMeasurement s m := by
  simp [ProcessMeasurement, h]

theorem processMeasurement_of_init (s : UKF) (m : MeasurementPackage)
    (h : s.is_initialized_ = true) :
    ProcessMeasurement s m =
      applyUpdates (Prediction { s with previous_timestamp_ := m.timestamp_ } (elapsed s m)) m := by
  simp [ProcessMeasurement, h]

theorem applyUpdates_laser (s : UKF) (m : MeasurementPackage)
    (hm : m.sensor_type_ = SensorType.LASER) (hu : s.use_laser_ = true) :
    applyUpdates s m = UpdateLidar s m := by
  simp [applyUpdates, hm, hu]

/-- C4. With the default configuration, after the laser measurement
`(1.0, 1.0)` at `t = 0` and the laser measurement `(1.1, 1.0)` at
`t = 100000`, the estimate `x_[0]` lies strictly between 1.0 and 1.1 and
`x_[1]` is 1.0. -/
theorem two_laser_measurements (x0 : Vec 5) (P0 : Mat 5 5) (X0 : Mat 5 15) :
    1.0 < (ProcessMeasurement
        (ProcessMeasurement (init x0 P0 X0) ⟨0, SensorType.LASER, [1.0, 1.0]⟩)
        ⟨100000, SensorType.LASER, [1.1, 1.0]⟩).x_ 0 ∧
      (ProcessMeasurement
        (ProcessMeasurement (init x0 P0 X0) ⟨0, SensorType.LASER, [1.0, 1.0]⟩)
        ⟨100000, SensorType.LASER, [1.1, 1.0]⟩).x_ 0 < 1.1 ∧
      (ProcessMeasurement
        (ProcessMeasurement (init x0 P0 X0) ⟨0, SensorType.LASER, [1.0, 1.0]⟩)
        ⟨100000, SensorType.LASER, [1.1, 1.0]⟩).x_ 1 = 1.0 := by
  rw [processMeasurement_of_uninit (init x0 P0 X0) _ rfl]
  set s1 := firstMeasurement (init x0 P0 X0) ⟨0, SensorType.LASER, [1.0, 1.0]⟩ with hs1
  have hx1 : s1.x_ = ![1.0, 1.0, 0, 0, 0] := by
    simp [hs1, firstMeasurement, MeasurementPackage.raw]
  have hP1 : s1.P_ = 1 := rfl
  rw [processMeasurement_of_init s1 _ rfl]
  have hel : elapsed s1 ⟨100000, SensorType.LASER, [1.1, 1.0]⟩ = 0 := by
    simp [elapsed, hs1, firstMeasurement]
  rw [hel]
  set s2 : UKF := { s1 with previous_timestamp_ := 100000 } with hs2
  have hPD : s2.P_.PosDef := by
    show s1.P_.PosDef
    rw [hP1]
    exact Matrix.PosDef.one
  have h33 : s2.P_ 3 3 < Real.pi ^ 2 / 3 := by
    show s1.P_ 3 3 < Real.pi ^ 2 / 3
    rw [hP1]
    simpa using one_lt_pi_sq_div_three
  have hPp : (Prediction s2 0).P_ = 1 :=
    (cov_kept_of_small_heading s2 hPD (heading_small s2 hPD h33)).trans hP1
  have hxp : (Prediction s2 0).x_ = ![1.0, 1.0, 0, 0, 0] :=
    (sigmaMean_predictSigma_zero s2).trans hx1
  rw [applyUpdates_laser _ _ rfl rfl]
  obtain ⟨hu0, hu1⟩ := updateLidar_of_P_one (Prediction s2 0)
    ⟨100000, SensorType.LASER, [1.1, 1.0]⟩ hPp
  have hsx : (Prediction s2 0).std_laspx_ = 0.15 := rfl
  have hsy : (Prediction s2 0).std_laspy_ = 0.15 := rfl
  rw [hu0, hu1, hxp, hsx, hsy]
  simp only [MeasurementPackage.raw]
  norm_num

/-! ## Whole turns -/

/-- C18. `normalizeAngle` only removes whole turns: `normalizeAngle a` is
`a - 2π k` for the integer `k = ⌊(a + π) / (2π)⌋`, and `normalizeAngle a = a`
exactly when `-π ≤ a < π`. -/
theorem normalizeAngle_whole_turns (a : ℝ) :
    (∃ k : ℤ, k = ⌊(a + Real.pi) / (2 * Real.pi)⌋ ∧
        normalizeAngle a = a - 2 * Real.pi * (k : ℝ)) ∧
      (normalizeAngle a = a ↔ -Real.pi ≤ a ∧ a < Real.pi) := by
  refine ⟨⟨_, rfl, rfl⟩, ?_, ?_⟩
  · intro h
    rw [← h]
    exact ⟨normalizeAngle_ge a, normalizeAngle_lt a⟩
  · intro h
    exact normalizeAngle_of_mem a h.1 h.2

/-! ## Linear components of the motion model -/

theorem predictPoint_speed (dt : ℝ) (a : Vec 7) : predictPoint dt a 2 = a 2 + a 5 * dt := rfl

theorem predictPoint_yaw (dt : ℝ) (a : Vec 7) :
    predictPoint dt a 3 = a 3 + a 4 * dt + 0.5 * a 6 * dt * dt := rfl

theorem predictPoint_yawd (dt : ℝ) (a : Vec 7) : predictPoint dt a 4 = a 4 + a 6 * dt := rfl

theorem x_aug_five (s : UKF) : x_aug s 5 = 0 := dif_neg (by decide)

theorem x_aug_six (s : UKF) : x_aug s 6 = 0 := dif_neg (by decide)

/-- The weighted sum of a linear combination of rows of `Xsig_aug` is the same
combination of the entries of `x_aug`. -/
theorem sum_weights_rows (s : UKF) (p q r : Fin 7) (a b : ℝ) :
    ∑ c : Fin 15, weights_ c * (Xsig_aug s p c + Xsig_aug s q c * a + b * Xsig_aug s r c) =
      x_aug s p + x_aug s q * a + b * x_aug s r := by
  rw [← Xsig_aug_sum s p, ← Xsig_aug_sum s q, ← Xsig_aug_sum s r, Finset.sum_mul,
    Finset.mul_sum, ← Finset.sum_add_distrib, ← Finset.sum_add_distrib]
  apply Finset.sum_congr rfl
  intro c _
  ring

/-- C19. For every time step `Δt` and every state (whatever the covariance),
the mean that `Prediction(Δt)` stores has speed `x_[2] = v`, yaw rate
`x_[4] = yawd` and heading `x_[3] = yaw + yawd * Δt`, not wrapped. -/
theorem prediction_linear_components (s : UKF) (dt : ℝ) :
    (Prediction s dt).x_ 2 = s.x_ 2 ∧
      (Prediction s dt).x_ 4 = s.x_ 4 ∧
      (Prediction s dt).x_ 3 = s.x_ 3 + s.x_ 4 * dt := by
  have h2 : x_aug s 2 = s.x_ 2 := x_aug_up s 2
  have h3 : x_aug s 3 = s.x_ 3 := x_aug_up s 3
  have h4 : x_aug s 4 = s.x_ 4 := x_aug_up s 4
  refine ⟨?_, ?_, ?_⟩
  · show ∑ c : Fin 15, weights_ c * predictPoint dt (fun q => Xsig_aug s q c) 2 = _
    simp only [predictPoint_speed]
    have h := sum_weights_rows s 2 5 5 dt 0
    simp only [zero_mul, add_zero] at h
    rw [h, x_aug_five, h2]
    ring
  · show ∑ c : Fin 15, weights_ c * predictPoint dt (fun q => Xsig_aug s q c) 4 = _
    simp only [predictPoint_yawd]
    have h := sum_weights_rows s 4 6 6 dt 0
    simp only [zero_mul, add_zero] at h
    rw [h, x_aug_six, h4]
    ring
  · show ∑ c : Fin 15, weights_ c * predictPoint dt (fun q => Xsig_aug s q c) 3 = _
    simp only [predictPoint_yaw]
    have h := sum_weights_rows s 3 4 6 dt (0.5 * dt * dt)
    have hre : ∀ c : Fin 15,
        weights_ c * (Xsig_aug s 3 c + Xsig_aug s 4 c * dt + 0.5 * Xsig_aug s 6 c * dt * dt) =
          weights_ c * (Xsig_aug s 3 c + Xsig_aug s 4 c * dt + 0.5 * dt * dt * Xsig_aug s 6 c) :=
      fun c => by ring
    simp only [hre]
    rw [h, x_aug_six, h3, h4]
    ring

/-! ## Heading variance below `π² / 3` -/

/-- C20. For every state mean and every symmetric positive definite `P_`
whose heading variance satisfies `P_[3][3] < π² / 3`, `Prediction(0)` stores a
covariance equal to the input `P_`. -/
theorem prediction_zero_cov_of_heading_variance (s : UKF) (hP : s.P_.PosDef)
    (h33 : s.P_ 3 3 < Real.pi ^ 2 / 3) : (Prediction s 0).P_ = s.P_ :=
  cov_kept_of_small_heading s hP (heading_small s hP h33)

/-- C20 at the identity covariance of a freshly seeded filter. -/
theorem prediction_zero_cov_of_heading_variance_witness :
    ({ init 0 0 0 with P_ := 1 } : UKF).P_.PosDef ∧
      ({ init 0 0 0 with P_ := 1 } : UKF).P_ 3 3 < Real.pi ^ 2 / 3 ∧
      (Prediction { init 0 0 0 with P_ := 1 } 0).P_ = 1 :=
  have hP : ({ init 0 0 0 with P_ := 1 } : UKF).P_.PosDef := Matrix.PosDef.one
  have h33 : ({ init 0 0 0 with P_ := 1 } : UKF).P_ 3 3 < Real.pi ^ 2 / 3 := by
    simpa using one_lt_pi_sq_div_three
  ⟨hP, h33, prediction_zero_cov_of_heading_variance _ hP h33⟩

/-! ## Sensor flags -/

theorem applyUpdates_disabled (s : UKF) (m : MeasurementPackage)
    (hoff : (m.sensor_type_ = SensorType.LASER ∧ s.use_laser_ = false) ∨
      (m.sensor_type_ = SensorType.RADAR ∧ s.use_radar_ = false)) :
    applyUpdates s m = s := by
  rcases hoff with ⟨hm, hu⟩ | ⟨hm, hu⟩ <;> simp [applyUpdates, hm, hu]

/-- C14. For an initialised filter, when the flag of the measurement's sensor
kind is false, `ProcessMeasurement` records the time stamp and runs
`Prediction(Δt)` but no update: the resulting `x_` and `P_` are exactly those
that `Prediction(Δt)` alone produces. -/
theorem processMeasurement_disabled (s : UKF) (m : MeasurementPackage)
    (hinit : s.is_initialized_ = true)
    (hoff : (m.sensor_type_ = SensorType.LASER ∧ s.use_laser_ = false) ∨
      (m.sensor_type_ = SensorType.RADAR ∧ s.use_radar_ = false)) :
    ProcessMeasurement s m =
        Prediction { s with previous_timestamp_ := m.timestamp_ } (elapsed s m) ∧
      (ProcessMeasurement s m).x_ = (Prediction s (elapsed s m)).x_ ∧
      (ProcessMeasurement s m).P_ = (Prediction s (elapsed s m)).P_ := by
  have h : ProcessMeasurement s m =
      Prediction { s with previous_timestamp_ := m.timestamp_ } (elapsed s m) := by
    rw [processMeasurement_of_init s m hinit]
    exact applyUpdates_disabled _ m hoff
  refine ⟨h, ?_, ?_⟩
  · rw [h]
    rfl
  · rw [h]
    rfl

/-- C14 at a filter with `use_laser_ = false` that receives a laser
measurement, and at one with `use_radar_ = false` that receives a radar
measurement. -/
theorem processMeasurement_disabled_witness :
    (ProcessMeasurement
        { init 0 1 0 with is_initialized_ := true, use_laser_ := false, previous_timestamp_ := 5 }
        ⟨100005, SensorType.LASER, [1.1, 1.0]⟩).P_ =
      (Prediction
        { init 0 1 0 with is_initialized_ := true, use_laser_ := false, previous_timestamp_ := 5 }
        (elapsed
          { init 0 1 0 with is_initialized_ := true, use_laser_ := false, previous_timestamp_ := 5 }
          ⟨100005, SensorType.LASER, [1.1, 1.0]⟩)).P_ ∧
    (ProcessMeasurement
        { init 0 1 0 with is_initialized_ := true, use_radar_ := false, previous_timestamp_ := 5 }
        ⟨100005, SensorType.RADAR, [1.0, 0.0, 0.0]⟩).x_ =
      (Prediction
        { init 0 1 0 with is_initialized_ := true, use_radar_ := false, previous_timestamp_ := 5 }
        (elapsed
          { init 0 1 0 with is_initialized_ := true, use_radar_ := false, previous_timestamp_ := 5 }
          ⟨100005, SensorType.RADAR, [1.0, 0.0, 0.0]⟩)).x_ :=
  ⟨(processMeasurement_disabled
      { init 0 1 0 with is_initialized_ := true, use_laser_ := false, previous_timestamp_ := 5 }
      ⟨100005, SensorType.LASER, [1.1, 1.0]⟩ rfl (Or.inl ⟨rfl, rfl⟩)).2.2,
   (processMeasurement_disabled
      { init 0 1 0 with is_initialized_ := true, use_radar_ := false, previous_timestamp_ := 5 }
      ⟨100005, SensorType.RADAR, [1.0, 0.0, 0.0]⟩ rfl (Or.inr ⟨rfl, rfl⟩)).2.1⟩

/-- C17. For a filter that is not initialised, the first measurement seeds
`x_`, `P_`, `is_initialized_` and `previous_timestamp_` in the same way
whatever the values of `use_laser_` and `use_radar_`: the flags are carried
through and nothing else depends on them. -/
theorem processMeasurement_first_ignores_flags (s : UKF) (m : MeasurementPackage)
    (ul ur : Bool) (h : s.is_initialized_ = false) :
    ProcessMeasurement { s with use_laser_ := ul, use_radar_ := ur } m =
        { ProcessMeasurement s m with use_laser_ := ul, use_radar_ := ur } ∧
      (ProcessMeasurement { s with use_laser_ := ul, use_radar_ := ur } m).is_initialized_
        = true ∧
      (ProcessMeasurement { s with use_laser_ := ul, use_radar_ := ur } m).previous_timestamp_
        = m.timestamp_ ∧
      (ProcessMeasurement { s with use_laser_ := ul, use_radar_ := ur } m).P_ = 1 := by
  have h1 : ({ s with use_laser_ := ul, use_radar_ := ur } : UKF).is_initialized_ = false := h
  rw [processMeasurement_of_uninit _ m h1, processMeasurement_of_uninit s m h]
  exact ⟨rfl, rfl, rfl, rfl⟩

/-- C17 at a laser measurement delivered to a fresh filter whose `use_laser_`
is false. -/
theorem processMeasurement_first_ignores_flags_witness :
    (init 0 0 0).is_initialized_ = false ∧
      (ProcessMeasurement { init 0 0 0 with use_laser_ := false, use_radar_ := true }
        ⟨7, SensorType.LASER, [1.0, 1.0]⟩).x_ = ![1.0, 1.0, 0, 0, 0] ∧
      (ProcessMeasurement { init 0 0 0 with use_laser_ := false, use_radar_ := true }
        ⟨7, SensorType.LASER, [1.0, 1.0]⟩).previous_timestamp_ = 7 := by
  have h := processMeasurement_first_ignores_flags (init 0 0 0)
    ⟨7, SensorType.LASER, [1.0, 1.0]⟩ false true rfl
  refine ⟨rfl, ?_, h.2.2.1⟩
  rw [h.1, processMeasurement_of_uninit _ _ rfl]
  simp [firstMeasurement, MeasurementPackage.raw]

/-! ## The clamp of the radar projection -/

theorem clampEps_abs_ge (a : ℝ) : 0.00000001 ≤ |clampEps a| := by
  unfold clampEps
  split_ifs with h
  · rw [abs_of_pos (by norm_num)]
  · exact not_lt.mp h

/-- C15. For every `Xsig_pred_` and every column, the clamped coordinates
`p_x`, `p_y` of `UpdateRadar` satisfy `|p_x| ≥ 1e-8` and `|p_y| ≥ 1e-8`; the
range `Zsig(0,c) = sqrt(p_x² + p_y²)`, which is the divisor of the range rate
`Zsig(2,c)`, is strictly positive, and the bearing `Zsig(1,c)` is `atan2` at a
point other than `(0, 0)`. -/
theorem radar_projection_clamped (s : UKF) (c : Fin 15) :
    0.00000001 ≤ |clampEps (s.Xsig_pred_ 0 c)| ∧
      0.00000001 ≤ |clampEps (s.Xsig_pred_ 1 c)| ∧
      0 < Zsig s 0 c ∧
      Zsig s 2 c =
        (clampEps (s.Xsig_pred_ 0 c) * (Real.cos (s.Xsig_pred_ 3 c) * s.Xsig_pred_ 2 c) +
          clampEps (s.Xsig_pred_ 1 c) * (Real.sin (s.Xsig_pred_ 3 c) * s.Xsig_pred_ 2 c)) /
            Zsig s 0 c ∧
      Zsig s 1 c = atan2 (clampEps (s.Xsig_pred_ 1 c)) (clampEps (s.Xsig_pred_ 0 c)) ∧
      (clampEps (s.Xsig_pred_ 0 c), clampEps (s.Xsig_pred_ 1 c)) ≠ (0, 0) := by
  have hx := clampEps_abs_ge (s.Xsig_pred_ 0 c)
  have hy := clampEps_abs_ge (s.Xsig_pred_ 1 c)
  have hx0 : clampEps (s.Xsig_pred_ 0 c) ≠ 0 := by
    intro h0
    rw [h0, abs_zero] at hx
    norm_num at hx
  refine ⟨hx, hy, ?_, rfl, rfl, ?_⟩
  · show 0 < Real.sqrt (clampEps (s.Xsig_pred_ 0 c) * clampEps (s.Xsig_pred_ 0 c) +
      clampEps (s.Xsig_pred_ 1 c) * clampEps (s.Xsig_pred_ 1 c))
    apply Real.sqrt_pos.mpr
    have h1 : 0 < clampEps (s.Xsig_pred_ 0 c) * clampEps (s.Xsig_pred_ 0 c) :=
      mul_self_pos.mpr hx0
    have h2 := mul_self_nonneg (clampEps (s.Xsig_pred_ 1 c))
    linarith
  · intro h
    exact hx0 (congrArg Prod.fst h)

/-! ## Laser update: innovation covariance, NIS and covariance -/

theorem R_laser_eq_diagonal (s : UKF) :
    R_laser_ s =
      Matrix.diagonal ![s.std_laspx_ * s.std_laspx_, s.std_laspy_ * s.std_laspy_] := by
  ext i j
  fin_cases i <;> fin_cases j <;> simp [R_laser_]

theorem R_laser_posDef (s : UKF) (hx : 0 < s.std_laspx_) (hy : 0 < s.std_laspy_) :
    (R_laser_ s).PosDef := by
  rw [R_laser_eq_diagonal]
  apply Matrix.PosDef.diagonal
  intro i
  fin_cases i
  · exact mul_pos hx hx
  · exact mul_pos hy hy

theorem lidarS_posDef (s : UKF) (hP : s.P_.PosSemidef)
    (hx : 0 < s.std_laspx_) (hy : 0 < s.std_laspy_) : (lidarS s).PosDef := by
  have h1 : (H_laser_ * s.P_ * H_laser_ᵀ).PosSemidef := by
    have h := hP.mul_mul_conjTranspose_same H_laser_
    rwa [Matrix.conjTranspose_eq_transpose_of_trivial] at h
  exact Matrix.PosDef.posSemidef_add h1 (R_laser_posDef s hx hy)

/-- C13. For every state mean, symmetric positive semi-definite `P_` and
laser measurement, with positive laser noise standard deviations, the value
`epsilon = yᵗ S⁻¹ y` of `UpdateLidar` is non-negative, and it is zero exactly
when the innovation `y` is zero. -/
theorem lidarEpsilon_nonneg (s : UKF) (m : MeasurementPackage) (hP : s.P_.PosSemidef)
    (hx : 0 < s.std_laspx_) (hy : 0 < s.std_laspy_) :
    0 ≤ lidarEpsilon s m ∧ (lidarEpsilon s m = 0 ↔ lidarY s m = 0) := by
  have hSi : (lidarS s)⁻¹.PosDef := (lidarS_posDef s hP hx hy).inv
  have hpos : ∀ y : Vec 2, y ≠ 0 → 0 < y ⬝ᵥ (lidarS s)⁻¹ *ᵥ y := by
    intro y hy0
    have h := hSi.2 y hy0
    simpa using h
  by_cases h0 : lidarY s m = 0
  · have he : lidarEpsilon s m = 0 := by
      simp [lidarEpsilon, h0]
    exact ⟨le_of_eq he.symm, fun _ => h0, fun _ => he⟩
  · have he : 0 < lidarEpsilon s m := hpos _ h0
    exact ⟨le_of_lt he, fun h => absurd h (ne_of_gt he), fun h => absurd h h0⟩

/-- C13 at the state seeded by the laser measurement `(1, 1)` and the
measurement `(1.1, 1.0)`. -/
theorem lidarEpsilon_nonneg_witness :
    ({ init 0 1 0 with x_ := ![1, 1, 0, 0, 0] } : UKF).P_.PosSemidef ∧
      0 ≤ lidarEpsilon { init 0 1 0 with x_ := ![1, 1, 0, 0, 0] }
        ⟨100000, SensorType.LASER, [1.1, 1.0]⟩ :=
  have hP : ({ init 0 1 0 with x_ := ![1, 1, 0, 0, 0] } : UKF).P_.PosSemidef :=
    Matrix.PosSemidef.one
  ⟨hP, (lidarEpsilon_nonneg { init 0 1 0 with x_ := ![1, 1, 0, 0, 0] }
    ⟨100000, SensorType.LASER, [1.1, 1.0]⟩ hP
    (by show (0 : ℝ) < 0.15; norm_num) (by show (0 : ℝ) < 0.15; norm_num)).1⟩

theorem lidarK_mul_S (s : UKF) (hS : IsUnit (lidarS s).det) :
    lidarK s * lidarS s = s.P_ * H_laser_ᵀ := by
  rw [lidarK, Matrix.mul_assoc, Matrix.nonsing_inv_mul _ hS, Matrix.mul_one]

/-- The symmetric (Joseph) form of the covariance that `UpdateLidar` stores. -/
theorem updateLidar_joseph (s : UKF) (hS : IsUnit (lidarS s).det) :
    (1 - lidarK s * H_laser_) * s.P_ =
      (1 - lidarK s * H_laser_) * s.P_ * (1 - lidarK s * H_laser_)ᵀ
        + lidarK s * R_laser_ s * (lidarK s)ᵀ := by
  have hKS := lidarK_mul_S s hS
  have hHPH : H_laser_ * s.P_ * H_laser_ᵀ = lidarS s - R_laser_ s := by
    simp [lidarS]
  have key : (1 - lidarK s * H_laser_) * s.P_ * H_laser_ᵀ = lidarK s * R_laser_ s := by
    rw [Matrix.sub_mul, Matrix.sub_mul, Matrix.one_mul, Matrix.mul_assoc (lidarK s),
      Matrix.mul_assoc (lidarK s), hHPH, Matrix.mul_sub, hKS]
    abel
  have hT : (1 - lidarK s * H_laser_)ᵀ = 1 - H_laser_ᵀ * (lidarK s)ᵀ := by
    rw [Matrix.transpose_sub, Matrix.transpose_one, Matrix.transpose_mul]
  rw [hT, Matrix.mul_sub, Matrix.mul_one, ← Matrix.mul_assoc, key]
  abel

/-- C12. For every state mean, symmetric positive semi-definite `P_` and
laser measurement, with positive laser noise standard deviations, the
covariance `(I - K H) P_` that `UpdateLidar` stores is again symmetric
positive semi-definite. -/
theorem updateLidar_posSemidef (s : UKF) (m : MeasurementPackage) (hP : s.P_.PosSemidef)
    (hx : 0 < s.std_laspx_) (hy : 0 < s.std_laspy_) :
    (UpdateLidar s m).P_.PosSemidef := by
  have hS : IsUnit (lidarS s).det :=
    isUnit_iff_ne_zero.mpr (ne_of_gt (lidarS_posDef s hP hx hy).det_pos)
  show ((1 - lidarK s * H_laser_) * s.P_).PosSemidef
  rw [updateLidar_joseph s hS]
  have h1 : ((1 - lidarK s * H_laser_) * s.P_ * (1 - lidarK s * H_laser_)ᵀ).PosSemidef := by
    have h := hP.mul_mul_conjTranspose_same (1 - lidarK s * H_laser_)
    rwa [Matrix.conjTranspose_eq_transpose_of_trivial] at h
  have h2 : (lidarK s * R_laser_ s * (lidarK s)ᵀ).PosSemidef := by
    have h := (R_laser_posDef s hx hy).posSemidef.mul_mul_conjTranspose_same (lidarK s)
    rwa [Matrix.conjTranspose_eq_transpose_of_trivial] at h
  exact h1.add h2

/-- C12 at the identity covariance with the default laser noise. -/
theorem updateLidar_posSemidef_witness :
    ({ init 0 1 0 with x_ := ![1, 1, 0, 0, 0] } : UKF).P_.PosSemidef ∧
      (UpdateLidar { init 0 1 0 with x_ := ![1, 1, 0, 0, 0] }
        ⟨100000, SensorType.LASER, [1.1, 1.0]⟩).P_.PosSemidef :=
  have hP : ({ init 0 1 0 with x_ := ![1, 1, 0, 0, 0] } : UKF).P_.PosSemidef :=
    Matrix.PosSemidef.one
  ⟨hP, updateLidar_posSemidef { init 0 1 0 with x_ := ![1, 1, 0, 0, 0] }
    ⟨100000, SensorType.LASER, [1.1, 1.0]⟩ hP
    (by show (0 : ℝ) < 0.15; norm_num) (by show (0 : ℝ) < 0.15; norm_num)⟩

/-! ## Symmetry of the covariance -/

theorem sigmaCov_isSymm (X : Mat 5 15) (x : Vec 5) : (sigmaCov X x).IsSymm := by
  apply Matrix.IsSymm.ext
  intro a b
  simp only [sigmaCov]
  apply Finset.sum_congr rfl
  intro c _
  ring

theorem prediction_isSymm (s : UKF) (dt : ℝ) : (Prediction s dt).P_.IsSymm :=
  sigmaCov_isSymm _ _

theorem R_laser_isSymm (s : UKF) : (R_laser_ s)ᵀ = R_laser_ s := by
  rw [R_laser_eq_diagonal, Matrix.diagonal_transpose]

theorem lidarS_isSymm (s : UKF) (hP : s.P_.IsSymm) : (lidarS s)ᵀ = lidarS s := by
  simp only [lidarS, Matrix.transpose_add, Matrix.transpose_mul, Matrix.transpose_transpose,
    R_laser_isSymm, hP.eq, Matrix.mul_assoc]

theorem updateLidar_isSymm (s : UKF) (m : MeasurementPackage) (hP : s.P_.IsSymm) :
    (UpdateLidar s m).P_.IsSymm := by
  show ((1 - lidarK s * H_laser_) * s.P_)ᵀ = (1 - lidarK s * H_laser_) * s.P_
  have hK : (lidarK s)ᵀ = (lidarS s)⁻¹ * (H_laser_ * s.P_) := by
    simp only [lidarK, Matrix.transpose_mul, Matrix.transpose_transpose,
      Matrix.transpose_nonsing_inv, lidarS_isSymm s hP, hP.eq, Matrix.mul_assoc]
  rw [Matrix.transpose_mul, Matrix.transpose_sub, Matrix.transpose_one, Matrix.transpose_mul,
    hK, hP.eq, Matrix.mul_sub, Matrix.sub_mul, Matrix.mul_one, Matrix.one_mul, lidarK]
  simp only [Matrix.mul_assoc]

theorem radarS_isSymm (s : UKF) (hR : s.R_radar_.IsSymm) : (radarS s)ᵀ = radarS s := by
  have h1 : (Matrix.of fun a b =>
      ∑ c : Fin 15, weights_ c * radarZdiff s c a * radarZdiff s c b :
        Mat 3 3)ᵀ =
      Matrix.of fun a b => ∑ c : Fin 15, weights_ c * radarZdiff s c a * radarZdiff s c b := by
    ext a b
    simp only [Matrix.transpose_apply, Matrix.of_apply]
    apply Finset.sum_congr rfl
    intro c _
    ring
  rw [radarS, Matrix.transpose_add, h1, hR.eq]

theorem updateRadar_isSymm (s : UKF) (m : MeasurementPackage) (hP : s.P_.IsSymm)
    (hR : s.R_radar_.IsSymm) : (UpdateRadar s m).P_.IsSymm := by
  show (s.P_ - radarK s * radarS s * (radarK s)ᵀ)ᵀ = s.P_ - radarK s * radarS s * (radarK s)ᵀ
  rw [Matrix.transpose_sub, Matrix.transpose_mul, Matrix.transpose_mul,
    Matrix.transpose_transpose, radarS_isSymm s hR, hP.eq, Matrix.mul_assoc]

theorem applyUpdates_isSymm (s : UKF) (m : MeasurementPackage) (hP : s.P_.IsSymm)
    (hR : s.R_radar_.IsSymm) : (applyUpdates s m).P_.IsSymm := by
  unfold applyUpdates
  simp only
  split_ifs
  · exact updateLidar_isSymm _ m (updateRadar_isSymm s m hP hR)
  · exact updateRadar_isSymm s m hP hR
  · exact updateLidar_isSymm _ m hP
  · exact hP

theorem applyUpdates_R_radar (s : UKF) (m : MeasurementPackage) :
    (applyUpdates s m).R_radar_ = s.R_radar_ := by
  unfold applyUpdates
  simp only
  split_ifs <;> rfl

theorem processMeasurement_R_radar (s : UKF) (m : MeasurementPackage) :
    (ProcessMeasurement s m).R_radar_ = s.R_radar_ := by
  cases h : s.is_initialized_ with
  | false => rw [processMeasurement_of_uninit s m h]; rfl
  | true => rw [processMeasurement_of_init s m h, applyUpdates_R_radar]; rfl

theorem processMeasurement_isSymm (s : UKF) (m : MeasurementPackage)
    (hR : s.R_radar_.IsSymm) : (ProcessMeasurement s m).P_.IsSymm := by
  cases h : s.is_initialized_ with
  | false =>
    rw [processMeasurement_of_uninit s m h]
    exact Matrix.isSymm_one
  | true =>
    rw [processMeasurement_of_init s m h]
    exact applyUpdates_isSymm _ m (prediction_isSymm _ _) hR

theorem init_R_radar_isSymm (x0 : Vec 5) (P0 : Mat 5 5) (X0 : Mat 5 15) :
    (init x0 P0 X0).R_radar_.IsSymm := by
  apply Matrix.IsSymm.ext
  intro i j
  fin_cases i <;> fin_cases j <;> rfl

theorem reachable_invariant (s : UKF) (h : Reachable s) :
    s.R_radar_.IsSymm ∧ (s.is_initialized_ = true → s.P_.IsSymm) := by
  induction h with
  | start x0 P0 X0 ul ur =>
    refine ⟨init_R_radar_isSymm x0 P0 X0, ?_⟩
    intro hinit
    exact absurd hinit (by simp [init])
  | step s m _ ih =>
    refine ⟨?_, fun _ => processMeasurement_isSymm s m ih.1⟩
    rw [processMeasurement_R_radar]
    exact ih.1

theorem applyUpdates_is_initialized (s : UKF) (m : MeasurementPackage) :
    (applyUpdates s m).is_initialized_ = s.is_initialized_ := by
  unfold applyUpdates
  simp only
  split_ifs <;> rfl

theorem processMeasurement_is_initialized (s : UKF) (m : MeasurementPackage) :
    (ProcessMeasurement s m).is_initialized_ = true := by
  cases h : s.is_initialized_ with
  | false => rw [processMeasurement_of_uninit s m h]; rfl
  | true => rw [processMeasurement_of_init s m h, applyUpdates_is_initialized]; exact h

/-- C11. Symmetry of `P_` is an invariant of the filter: the first
measurement leaves the identity, `Prediction(Δt)` produces a symmetric `P_`
for every `Δt` and every input state, `UpdateLidar` and `UpdateRadar` (with
the symmetric `R_radar_` of the constructor) each produce a symmetric `P_`
from a symmetric one, and so `P_` is symmetric in every initialised state
reachable through `ProcessMeasurement`. -/
theorem covariance_symmetric :
    (∀ (s : UKF) (m : MeasurementPackage), s.is_initialized_ = false →
        (ProcessMeasurement s m).P_.IsSymm) ∧
      (∀ (s : UKF) (dt : ℝ), (Prediction s dt).P_.IsSymm) ∧
      (∀ (s : UKF) (m : MeasurementPackage), s.P_.IsSymm → (UpdateLidar s m).P_.IsSymm) ∧
      (∀ (s : UKF) (m : MeasurementPackage), s.P_.IsSymm → s.R_radar_.IsSymm →
        (UpdateRadar s m).P_.IsSymm) ∧
      (∀ s : UKF, Reachable s → s.is_initialized_ = true → s.P_.IsSymm) := by
  refine ⟨?_, prediction_isSymm, updateLidar_isSymm, updateRadar_isSymm, ?_⟩
  · intro s m h
    rw [processMeasurement_of_uninit s m h]
    exact Matrix.isSymm_one
  · intro s h
    exact (reachable_invariant s h).2

/-- C11 at a filter with the identity covariance, for both updates, and at
the state reached by two measurements. -/
theorem covariance_symmetric_witness :
    (UpdateLidar { init 0 1 0 with is_initialized_ := true }
        ⟨100000, SensorType.LASER, [1.1, 1.0]⟩).P_.IsSymm ∧
      (UpdateRadar { init 0 1 0 with is_initialized_ := true }
        ⟨100000, SensorType.RADAR, [1.0, 0.0, 0.0]⟩).P_.IsSymm ∧
      (ProcessMeasurement
        (ProcessMeasurement { init 0 0 0 with use_laser_ := true, use_radar_ := true }
          ⟨0, SensorType.LASER, [1.0, 1.0]⟩)
        ⟨100000, SensorType.RADAR, [1.0, 0.0, 0.0]⟩).P_.IsSymm :=
  ⟨covariance_symmetric.2.2.1 _ _ Matrix.isSymm_one,
    covariance_symmetric.2.2.2.1 _ _ Matrix.isSymm_one (init_R_radar_isSymm 0 1 0),
    covariance_symmetric.2.2.2.2 _
      (Reachable.step _ _ (Reachable.step _ _ (Reachable.start 0 0 0 true true)))
      (processMeasurement_is_initialized _ _)⟩

/-! ## A failed factorisation -/

theorem lltColumn_some_pos {n : ℕ} (m m1 : Mat n n) (k : Fin n)
    (h : lltColumn m k = some m1) :
    0 < m k k - sumBelow k (fun t => m k t * m k t) := by
  by_contra hx
  simp [lltColumn, not_lt.mp hx] at h

theorem unblockedFrom_succ_none {n : ℕ} (r k : ℕ) (m : Mat n n) (h : k < n)
    (hc : lltColumn m ⟨k, h⟩ = none) : unblockedFrom (r + 1) k m = (m, (k : ℤ)) := by
  rw [unblockedFrom, dif_pos h, hc]

theorem unblockedFrom_succ_some {n : ℕ} (r k : ℕ) (m m1 : Mat n n) (h : k < n)
    (hc : lltColumn m ⟨k, h⟩ = some m1) :
    unblockedFrom (r + 1) k m = unblockedFrom r (k + 1) m1 := by
  rw [unblockedFrom, dif_pos h, hc]

/-- What the Cholesky loop returns: either `-1` with all columns factorised,
or the index `k1` of a non-positive pivot, with the columns from `k1` on
still holding the entries of the input. -/
theorem unblockedFrom_result {n : ℕ} (A : Mat n n) :
    ∀ (r k : ℕ) (m : Mat n n), k + r = n → CholInv A k m →
      ((unblockedFrom r k m).2 = -1 ∧ CholInv A n (unblockedFrom r k m).1) ∨
        ∃ k1 : Fin n, k ≤ k1.val ∧ (unblockedFrom r k m).2 = (k1.val : ℤ) ∧
          ∀ i j : Fin n, k1.val ≤ j.val → (unblockedFrom r k m).1 i j = A i j := by
  intro r
  induction r with
  | zero =>
    intro k m hk hinv
    left
    have hkn : k = n := by omega
    rw [hkn] at hinv
    exact ⟨rfl, hinv⟩
  | succ r ih =>
    intro k m hk hinv
    have hkn : k < n := by omega
    cases hc : lltColumn m ⟨k, hkn⟩ with
    | none =>
      right
      rw [unblockedFrom_succ_none r k m hkn hc]
      exact ⟨⟨k, hkn⟩, le_rfl, rfl, fun i j hj => hinv.1 i j hj⟩
    | some m1 =>
      obtain ⟨m2, h2, hinv2⟩ :=
        lltColumn_of_pos A m ⟨k, hkn⟩ hinv (lltColumn_some_pos m m1 ⟨k, hkn⟩ hc)
      have h12 : m2 = m1 := Option.some.inj (h2.symm.trans hc)
      rw [h12] at hinv2
      rw [unblockedFrom_succ_some r k m m1 hkn hc]
      rcases ih (k + 1) m1 (by omega) hinv2 with hl | ⟨k1, hk1, hret, hcols⟩
      · exact Or.inl hl
      · exact Or.inr ⟨k1, by omega, hret, hcols⟩

/-- A symmetric matrix on which the Cholesky loop runs to the end is positive
definite. -/
theorem posDef_of_cholInv {n : ℕ} (A mf : Mat n n) (hsymm : ∀ i j : Fin n, A i j = A j i)
    (hinv : CholInv A n mf) : A.PosDef := by
  obtain ⟨_, hdiag, heq⟩ := hinv
  set L : Mat n n := fun i j => if j ≤ i then mf i j else 0 with hL
  have hlow : ∀ i j : Fin n, j ≤ i → (L * Lᵀ) i j = A i j := by
    intro i j hji
    rw [← heq i j j.isLt hji, ← sum_ite_le]
    simp only [Matrix.mul_apply, Matrix.transpose_apply, hL]
    apply Finset.sum_congr rfl
    intro t _
    by_cases htj : t ≤ j
    · simp [htj, le_trans htj hji]
    · simp [htj]
  have hA : A = L * Lᵀ := by
    ext i j
    rcases le_total j i with h | h
    · exact (hlow i j h).symm
    · rw [hsymm i j, ← hlow j i h]
      simp only [Matrix.mul_apply, Matrix.transpose_apply]
      apply Finset.sum_congr rfl
      intro t _
      ring
  have hLtri : L.BlockTriangular OrderDual.toDual := by
    intro i j hij
    have hlt : i < j := OrderDual.toDual_lt_toDual.mp hij
    simp [hL, not_le.mpr hlt]
  have hLdet : L.det ≠ 0 := by
    rw [Matrix.det_of_lowerTriangular L hLtri]
    apply Finset.prod_ne_zero_iff.mpr
    intro t _
    have h1 : L t t = mf t t := by simp [hL]
    rw [h1]
    exact ne_of_gt (hdiag t t.isLt)
  have hLTunit : IsUnit Lᵀ.det := by
    rw [Matrix.det_transpose]
    exact isUnit_iff_ne_zero.mpr hLdet
  refine ⟨?_, ?_⟩
  · apply Matrix.IsHermitian.ext
    intro i j
    simpa using hsymm j i
  · intro x hx
    have hv : Lᵀ *ᵥ x ≠ 0 := by
      intro h0
      apply hx
      have h1 : (Lᵀ)⁻¹ *ᵥ (Lᵀ *ᵥ x) = x := by
        rw [Matrix.mulVec_mulVec, Matrix.nonsing_inv_mul _ hLTunit, Matrix.one_mulVec]
      rw [← h1, h0, Matrix.mulVec_zero]
    have hq : star x ⬝ᵥ A *ᵥ x = (Lᵀ *ᵥ x) ⬝ᵥ (Lᵀ *ᵥ x) := by
      rw [hA, ← Matrix.mulVec_mulVec, Matrix.dotProduct_mulVec, star_trivial,
        ← Matrix.mulVec_transpose]
    rw [hq]
    have hnn : 0 ≤ (Lᵀ *ᵥ x) ⬝ᵥ (Lᵀ *ᵥ x) :=
      Finset.sum_nonneg (fun i _ => mul_self_nonneg _)
    exact lt_of_le_of_ne hnn (fun h => hv (Matrix.dotProduct_self_eq_zero.mp h.symm))

theorem P_aug_symm (s : UKF) (hP : s.P_.IsSymm) (i j : Fin 7) :
    P_aug s i j = P_aug s j i := by
  by_cases h : i.val < 5 ∧ j.val < 5
  · obtain ⟨a, rfl⟩ := exists_up i h.1
    obtain ⟨b, rfl⟩ := exists_up j h.2
    rw [P_aug_up, P_aug_up]
    exact (hP.apply a b).symm
  · have h1 : ¬ (j.val < 5 ∧ i.val < 5) := fun hh => h ⟨hh.2, hh.1⟩
    simp only [P_aug, h, h1, dif_neg, not_false_eq_true]
    by_cases h5 : i.val = 5 ∧ j.val = 5
    · simp [h5]
    by_cases h6 : i.val = 6 ∧ j.val = 6
    · simp [h6]
    · have h5a : ¬ (j.val = 5 ∧ i.val = 5) := fun hh => h5 ⟨hh.2, hh.1⟩
      have h6a : ¬ (j.val = 6 ∧ i.val = 6) := fun hh => h6 ⟨hh.2, hh.1⟩
      simp [h5, h6, h5a, h6a]

/-- For a symmetric `P_` whose augmented covariance is not positive definite,
the factorisation in `Prediction` stops at a pivot `k1`, and the square root
matrix holds the entries of `P_aug` itself in the columns from `k1` on. -/
theorem sqrtL_of_not_posDef (s : UKF) (hP : s.P_.IsSymm) (hnot : ¬ (P_aug s).PosDef) :
    (llt (P_aug s)).success = false ∧
      ∃ k1 : Fin 7, (unblocked (P_aug s)).2 = (k1.val : ℤ) ∧
        ∀ i j : Fin 7, k1 ≤ j → j ≤ i → sqrtL s i j = P_aug s i j := by
  rcases unblockedFrom_result (P_aug s) 7 0 (P_aug s) (by norm_num) (cholInv_start _) with
    ⟨_, hinv⟩ | ⟨k1, _, hret, hcols⟩
  · exact absurd (posDef_of_cholInv (P_aug s) _ (P_aug_symm s hP) hinv) hnot
  · have hret1 : (unblocked (P_aug s)).2 = (k1.val : ℤ) := hret
    refine ⟨?_, k1, hret1, ?_⟩
    · simp only [llt, hret1, decide_eq_false_iff_not]
      omega
    · intro i j hkj hji
      simp only [sqrtL, LLT.matrixL, llt, hji, if_true]
      exact hcols i j hkj

theorem sumBelow_zero (a : Fin 7 → ℝ) : sumBelow (0 : Fin 7) a = 0 := by
  unfold sumBelow
  apply Finset.sum_eq_zero
  intro t _
  rw [if_neg (Fin.not_lt_zero t)]

/-- A non-positive first pivot stops the loop at once: the matrix is left as
it is and the loop returns 0. -/
theorem unblocked_first_pivot (A : Mat 7 7) (h : A 0 0 ≤ 0) :
    unblocked A = (A, 0) := by
  have hc : lltColumn A ⟨0, by norm_num⟩ = none := by
    have h0 : A 0 0 - sumBelow (0 : Fin 7) (fun t => A 0 t * A 0 t) ≤ 0 := by
      rw [sumBelow_zero]
      simpa using h
    simp only [lltColumn]
    exact if_pos h0
  exact unblockedFrom_succ_none 6 0 A (by norm_num) hc

theorem negCov_P_aug_zero : P_aug negCov 0 0 = -1 := by
  have h : P_aug negCov (up 0) (up 0) = negCov.P_ 0 0 := P_aug_up negCov 0 0
  rw [show (0 : Fin 7) = up 0 from rfl, h]
  simp [negCov]

theorem negCov_sqrtL (a : Fin 5) (t : Fin 7) :
    sqrtL negCov (up a) t = if t = up a then -1 else 0 := by
  have hu : unblocked (P_aug negCov) = (P_aug negCov, 0) :=
    unblocked_first_pivot _ (by rw [negCov_P_aug_zero]; norm_num)
  have hL : sqrtL negCov (up a) t = if t ≤ up a then P_aug negCov (up a) t else 0 := by
    simp only [sqrtL, LLT.matrixL, llt, hu]
  rw [hL]
  by_cases hta : t = up a
  · rw [if_pos hta, hta, if_pos le_rfl, P_aug_up]
    simp [negCov]
  · rw [if_neg hta]
    by_cases hle : t ≤ up a
    · rw [if_pos hle]
      have ht5 : t.val < 5 := lt_of_le_of_lt (show t.val ≤ (up a).val from hle) a.isLt
      obtain ⟨c, rfl⟩ := exists_up t ht5
      rw [P_aug_up]
      have hca : a ≠ c := fun h => hta (by rw [h])
      simp [negCov, Matrix.one_apply_ne hca]
    · rw [if_neg hle]

theorem negCov_heading (i : Fin 7) : |Real.sqrt 3 * sqrtL negCov 3 i| < Real.pi := by
  have h := negCov_sqrtL 3 i
  have hup : up 3 = (3 : Fin 7) := rfl
  rw [hup] at h
  have hs := sqrt_three_lt
  have h0 := Real.sqrt_nonneg 3
  have hpi := Real.pi_gt_three
  rw [h]
  split_ifs
  · rw [mul_neg, mul_one, abs_neg, abs_of_nonneg h0]
    linarith
  · rw [mul_zero, abs_zero]
    exact Real.pi_pos

theorem negCov_prediction_P : (Prediction negCov 0).P_ = 1 := by
  rw [prediction_zero_P]
  ext a b
  rw [sigmaCov_zero_eq negCov negCov_heading]
  simp only [negCov_sqrtL]
  rw [Finset.sum_eq_single (up a)]
  · by_cases hab : a = b
    · rw [hab]
      simp
    · have hne : up a ≠ up b := by
        intro h
        have hv : (up a).val = (up b).val := congrArg Fin.val h
        exact hab (Fin.ext hv)
      simp [hne, Matrix.one_apply_ne hab]
  · intro t _ ht
    simp [ht]
  · intro hnot
    exact absurd (Finset.mem_univ _) hnot

theorem negCov_not_posDef : ¬ (P_aug negCov).PosDef := by
  intro hpd
  have hne : (Pi.single 0 1 : Fin 7 → ℝ) ≠ 0 := by
    intro h0
    have h1 := congrFun h0 0
    simp at h1
  have h := hpd.2 (Pi.single 0 1) hne
  simp only [star_trivial, Matrix.mulVec_single, mul_one, Matrix.col_apply,
    single_dotProduct, one_mul] at h
  rw [negCov_P_aug_zero] at h
  norm_num at h

theorem negCov_isSymm : negCov.P_.IsSymm := by
  show (-(1 : Mat 5 5))ᵀ = -1
  rw [Matrix.transpose_neg, Matrix.transpose_one]

/-- C16 (as stated, refuted). For the symmetric covariance `P_ = -I` the
augmented covariance is not positive definite and the factorisation fails, yet
`Prediction(0)` returns an ordinary state: it replaces `P_ = -I` by the
identity, the same covariance that it returns for the positive definite
`P_ = I`. -/
theorem prediction_after_failed_factorisation :
    negCov.P_.IsSymm ∧ ¬ (P_aug negCov).PosDef ∧
      (llt (P_aug negCov)).success = false ∧
      (Prediction negCov 0).P_ = 1 ∧
      (Prediction negCov 0).P_ ≠ negCov.P_ ∧
      (Prediction negCov 0).P_ = (Prediction { init 0 0 0 with P_ := 1 } 0).P_ := by
  have hone : (Prediction { init 0 0 0 with P_ := 1 } 0).P_ = 1 :=
    cov_kept_of_small_heading _ Matrix.PosDef.one
      (heading_small _ Matrix.PosDef.one (by simpa using one_lt_pi_sq_div_three))
  refine ⟨negCov_isSymm, negCov_not_posDef,
    (sqrtL_of_not_posDef negCov negCov_isSymm negCov_not_posDef).1, negCov_prediction_P, ?_, ?_⟩
  · rw [negCov_prediction_P]
    intro h
    have h00 := congrFun (congrFun h 0) 0
    simp [negCov] at h00
    norm_num at h00
  · rw [negCov_prediction_P, hone]

/-- C16 (amended). When the augmented covariance built from a symmetric `P_`
is not positive definite, the factorisation inside `Prediction` stops at a
non-positive pivot `k1` and records the failure, but `Prediction` does not
read it: it returns an ordinary state.  The sigma points are generated from
the lower triangle `L` of the interrupted factorisation, whose columns from
`k1` on hold the entries of `P_aug` itself, and `Xsig_pred_`, `x_` and `P_`
are overwritten with the propagated points, their weighted mean and their
weighted covariance. -/
theorem prediction_of_not_posDef (s : UKF) (dt : ℝ) (hP : s.P_.IsSymm)
    (hnot : ¬ (P_aug s).PosDef) :
    (llt (P_aug s)).success = false ∧
      (∃ k1 : Fin 7, (unblocked (P_aug s)).2 = (k1.val : ℤ) ∧
        ∀ i j : Fin 7, k1 ≤ j → j ≤ i → sqrtL s i j = P_aug s i j) ∧
      (∀ r i : Fin 7, Xsig_aug s r (colPlus i) = x_aug s r + Real.sqrt 3 * sqrtL s r i ∧
        Xsig_aug s r (colMinus i) = x_aug s r - Real.sqrt 3 * sqrtL s r i) ∧
      (Prediction s dt).Xsig_pred_ = predictSigma s dt ∧
      (Prediction s dt).x_ = sigmaMean (predictSigma s dt) ∧
      (Prediction s dt).P_ = sigmaCov (predictSigma s dt) (sigmaMean (predictSigma s dt)) :=
  ⟨(sqrtL_of_not_posDef s hP hnot).1, (sqrtL_of_not_posDef s hP hnot).2,
    fun r i => ⟨Xsig_aug_colPlus s r i, Xsig_aug_colMinus s r i⟩, rfl, rfl, rfl⟩

/-- C16 (amended) at the covariance `-I`. -/
theorem prediction_of_not_posDef_witness :
    negCov.P_.IsSymm ∧ ¬ (P_aug negCov).PosDef ∧
      (llt (P_aug negCov)).success = false ∧
      (Prediction negCov 0).P_ =
        sigmaCov (predictSigma negCov 0) (sigmaMean (predictSigma negCov 0)) :=
  ⟨negCov_isSymm, negCov_not_posDef,
    (prediction_of_not_posDef negCov 0 negCov_isSymm negCov_not_posDef).1,
    (prediction_of_not_posDef negCov 0 negCov_isSymm negCov_not_posDef).2.2.2.2.2⟩

end UKF

end
